import Mathlib

/-!
Verification development for the acquisition pipeline of the chatbot backend
(scraper, sitemap discovery, URL utilities, pattern normalizer, LLM-merge).

The JavaScript sources are shallowly embedded:
* strings are modelled as `List Char` (JS strings) in the URL/crawler layer and
  as Lean `String` in the merge layer;
* the WHATWG `URL` constructor used by `normalizeUrl` / `isSameDomain` is
  modelled by an executable parser/serializer over a record of URL components.
  The model keeps characters literally (no percent-encoding, no IDNA, no
  whitespace stripping, no dot-segment removal) and does not model userinfo;
  on the canonical inputs manipulated by this code base these simplifications
  are behaviour-preserving, and the model is used consistently on both the
  parsing and the serializing side;
* network, browser and regex-engine effects (`fetch`, playwright rendering,
  cheerio queries, `RegExp.exec` streams) are passed in as explicit function
  parameters ("oracles"); everything the repository's own code does with their
  results is translated directly from the source.
-/

/-! ### Character helpers -/

def isAlphaC (c : Char) : Bool :=
  (65 ≤ c.toNat && c.toNat ≤ 90) || (97 ≤ c.toNat && c.toNat ≤ 122)

def isDigitC (c : Char) : Bool :=
  48 ≤ c.toNat && c.toNat ≤ 57

/-- Characters allowed in a URL scheme: ASCII alphanumerics and `+`, `-`, `.`. -/
def isSchemeChar (c : Char) : Bool :=
  isAlphaC c || isDigitC c || c = '+' || c = '-' || c = '.'

/-- JS `\s` restricted to the four common whitespace characters. -/
def isWsC (c : Char) : Bool :=
  c = ' ' || c = '\t' || c = '\n' || c = '\r'

/-- Boolean disequality on characters, used by the splitting combinators. -/
def neChar (sep c : Char) : Bool := !(c == sep)

theorem char_eq_of_toNat_eq {a b : Char} (h : a.toNat = b.toNat) : a = b := by
  rw [← Char.ofNat_toNat a, ← Char.ofNat_toNat b, h]

theorem toNat_toLower (c : Char) :
    (Char.toLower c).toNat =
      if 65 ≤ c.toNat ∧ c.toNat ≤ 90 then c.toNat + 32 else c.toNat := by
  unfold Char.toLower
  by_cases h : c.toNat ≥ 65 ∧ c.toNat ≤ 90
  · rw [if_pos h, if_pos h]
    have hv : (c.toNat + 32).isValidChar := Or.inl (by omega)
    rw [Char.ofNat, dif_pos hv]
    rfl
  · rw [if_neg h, if_neg h]

theorem toLower_idem (c : Char) : (Char.toLower c).toLower = Char.toLower c := by
  apply char_eq_of_toNat_eq
  have h₁ := toNat_toLower c
  have h₂ := toNat_toLower (Char.toLower c)
  by_cases h : 65 ≤ c.toNat ∧ c.toNat ≤ 90
  · rw [if_pos h] at h₁
    rw [h₂, h₁, if_neg (by omega)]
  · rw [if_neg h] at h₁
    rw [h₂, h₁, if_neg (h₁ ▸ h)]

/-- `Char.toLower` either fixes its argument or yields a lower-case letter. -/
theorem toLower_cases (c : Char) :
    Char.toLower c = c ∨ (97 ≤ (Char.toLower c).toNat ∧ (Char.toLower c).toNat ≤ 122) := by
  have h₁ := toNat_toLower c
  by_cases h : 65 ≤ c.toNat ∧ c.toNat ≤ 90
  · right
    rw [h₁, if_pos h]
    omega
  · left
    rw [if_neg h] at h₁
    exact char_eq_of_toNat_eq h₁

/-! ### List-of-characters helpers -/

def lowerL (s : List Char) : List Char := s.map Char.toLower

theorem lowerL_idem (s : List Char) : lowerL (lowerL s) = lowerL s := by
  simp [lowerL, Function.comp_def, toLower_idem]

def trimL (s : List Char) : List Char :=
  ((s.dropWhile isWsC).reverse.dropWhile isWsC).reverse

def isPrefixL : List Char → List Char → Bool
  | [], _ => true
  | _ :: _, [] => false
  | a :: as, b :: bs => a = b && isPrefixL as bs

def isInfixL (pat : List Char) : List Char → Bool
  | [] => pat.isEmpty
  | c :: rest => isPrefixL pat (c :: rest) || isInfixL pat rest

def isSuffixL (pat s : List Char) : Bool :=
  isPrefixL pat.reverse s.reverse

/-- Case-insensitive substring test, modelling an unanchored `/pat/i` regex. -/
def containsCI (pat s : List Char) : Bool :=
  isInfixL (lowerL pat) (lowerL s)

/-- Case-insensitive suffix test, modelling a `$`-anchored `/pat$/i` regex. -/
def suffixCI (pat s : List Char) : Bool :=
  isSuffixL (lowerL pat) (lowerL s)

/-- Insertion-ordered deduplication, JS `[...new Set(xs)]`: the first occurrence
of each element is kept, in order. -/
def dedupSeenL (seen : List (List Char)) : List (List Char) → List (List Char)
  | [] => []
  | x :: rest =>
    if x ∈ seen then dedupSeenL seen rest
    else x :: dedupSeenL (x :: seen) rest

def dedupPreserve (l : List (List Char)) : List (List Char) := dedupSeenL [] l

def strToL (s : String) : List Char := s.toList

/-! ### WHATWG `URL` model

Model of the parts of the `new URL(input, base)` constructor exercised by
`normalizeUrl` / `isSameDomain`: scheme parsing, authority (lower-cased host,
numeric port with default-port elision), path, query parsed into a parameter
list (as `URLSearchParams` does), fragment, and relative-reference resolution
against a base URL.  `none` models the constructor throwing `TypeError`. -/

structure UrlRec where
  scheme : List Char
  hasAuth : Bool
  host : List Char
  port : Option (List Char)
  path : List Char
  query : Option (List (List Char × List Char))
  fragment : Option (List Char)
deriving DecidableEq

/-- Splits a leading `scheme:` off a URL string, requiring the scheme to be a
nonempty run of scheme characters starting with a letter. -/
def takeScheme (cs : List Char) : Option (List Char × List Char) :=
  match cs.takeWhile isSchemeChar, cs.dropWhile isSchemeChar with
  | p0 :: pr, ':' :: rest => if isAlphaC p0 then some (p0 :: pr, rest) else none
  | _, _ => none

def notAuthStop (c : Char) : Bool :=
  !(c == '/' || c == '?' || c == '#')

def notPathStop (c : Char) : Bool :=
  !(c == '?' || c == '#')

/-- Splits the first `sep` out of a string: `some (before, after)` when present. -/
def splitFirst (sep : Char) (cs : List Char) : Option (List Char × List Char) :=
  match cs.dropWhile (neChar sep) with
  | [] => none
  | _ :: after => some (cs.takeWhile (neChar sep), after)

theorem splitFirst_length {sep : Char} {cs pre post : List Char}
    (h : splitFirst sep cs = some (pre, post)) : post.length < cs.length := by
  unfold splitFirst at h
  cases hd : cs.dropWhile (neChar sep) with
  | nil => rw [hd] at h; exact absurd h (by simp)
  | cons c after =>
    rw [hd] at h
    have hlen : (c :: after).length ≤ cs.length := by
      have := List.dropWhile_sublist (l := cs) (p := neChar sep)
      rw [hd] at this
      exact this.length_le
    simp only [Option.some.injEq, Prod.mk.injEq] at h
    rw [← h.2]
    simp only [List.length_cons] at hlen
    omega

/-- `host[:port]` splitting as in the WHATWG host parser: the first `:` starts
the port, which must be all digits; a host containing a stray `:` or a
non-numeric port makes the whole parse fail. -/
def splitPortA (auth : List Char) : Option (List Char × Option (List Char)) :=
  match splitFirst ':' auth with
  | none => some (auth, none)
  | some (h, p) =>
    if p.all isDigitC then
      (if p.isEmpty then some (h, none) else some (h, some p))
    else none

def digitsToNat (ds : List Char) : Nat :=
  ds.foldl (fun acc c => 10 * acc + (c.toNat - 48)) 0

/-- Default ports elided from the serialization, per the WHATWG special schemes. -/
def isDefaultPort (scheme p : List Char) : Bool :=
  (scheme = strToL "http" && digitsToNat p = 80) ||
  (scheme = strToL "https" && digitsToNat p = 443) ||
  (scheme = strToL "ws" && digitsToNat p = 80) ||
  (scheme = strToL "wss" && digitsToNat p = 443) ||
  (scheme = strToL "ftp" && digitsToNat p = 21)

/-- One `k=v` component of a query string (no `=` makes the value empty). -/
def parsePair (part : List Char) : List Char × List Char :=
  match splitFirst '=' part with
  | none => (part, [])
  | some (k, v) => (k, v)

/-- Structural split on every occurrence of `sep` (JS `String.split`),
with an accumulator for the segment under construction. -/
def splitAllAux (sep : Char) (cur : List Char) : List Char → List (List Char)
  | [] => [cur.reverse]
  | c :: rest =>
    if c = sep then cur.reverse :: splitAllAux sep [] rest
    else splitAllAux sep (c :: cur) rest

def splitAll (sep : Char) (cs : List Char) : List (List Char) :=
  splitAllAux sep [] cs

/-- `URLSearchParams` parsing of a query string: split on `&`, drop empty
parts, split each part at its first `=`. -/
def parseParams (cs : List Char) : List (List Char × List Char) :=
  ((splitAll '&' cs).filter (fun p => !(p.isEmpty))).map parsePair

/-- Query-and-fragment tail of a URL (everything after the path). -/
def parseAfterPath (cs : List Char) :
    Option (List (List Char × List Char)) × Option (List Char) :=
  match cs with
  | '?' :: rest =>
    (some (parseParams (rest.takeWhile (neChar '#'))),
     match rest.dropWhile (neChar '#') with
     | '#' :: u => some u
     | _ => none)
  | '#' :: rest => (none, some rest)
  | _ => (none, none)

/-- Default-port elision performed by the parser on an authority's port. -/
def dropDefaultPort (scheme : List Char) : Option (List Char) → Option (List Char)
  | some p => if isDefaultPort scheme p then none else some p
  | none => none

/-- Parses `//host[:port]path?query#fragment` with a known scheme. -/
def parseNetPath (scheme rest1 : List Char) : Option UrlRec :=
  let auth := rest1.takeWhile notAuthStop
  let rest2 := rest1.dropWhile notAuthStop
  match splitPortA auth with
  | none => none
  | some (h0, port0) =>
    let host := lowerL h0
    let port := dropDefaultPort scheme port0
    let p0 := rest2.takeWhile notPathStop
    let path := if p0.isEmpty then ['/'] else p0
    let qf := parseAfterPath (rest2.dropWhile notPathStop)
    some ⟨scheme, true, host, port, path, qf.1, qf.2⟩

/-- Scheme-relative body of an absolute URL: either an authority form
(`//...`) or an opaque path (`mailto:...`). -/
def parseAfterScheme (scheme rest : List Char) : Option UrlRec :=
  match rest with
  | '/' :: '/' :: rest1 => parseNetPath scheme rest1
  | _ =>
    let p0 := rest.takeWhile notPathStop
    let qf := parseAfterPath (rest.dropWhile notPathStop)
    some ⟨scheme, false, [], none, p0, qf.1, qf.2⟩

/-- `new URL(cs)` without a base. -/
def parseAbs (cs : List Char) : Option UrlRec :=
  match takeScheme cs with
  | none => none
  | some (sch, rest) => parseAfterScheme (lowerL sch) rest

/-- Directory of a path: everything up to and including the last `/`. -/
def dirOf : List Char → List Char
  | [] => []
  | c :: rest => if '/' ∈ rest then c :: dirOf rest else (if c = '/' then ['/'] else [])

/-- Resolution of a (possibly relative) reference against a parsed base,
following the WHATWG basic URL parser's state machine on the forms the
code base produces. -/
def resolveRel (cs : List Char) (b : UrlRec) : Option UrlRec :=
  match takeScheme cs with
  | some _ => parseAbs cs
  | none =>
    if b.hasAuth then
      match cs with
      | [] => some { b with fragment := none }
      | '/' :: '/' :: rest1 => parseNetPath b.scheme rest1
      | '?' :: rest =>
        some { b with
          query := some (parseParams (rest.takeWhile (neChar '#'))),
          fragment := match rest.dropWhile (neChar '#') with
            | '#' :: u => some u
            | _ => none }
      | '#' :: rest => some { b with fragment := some rest }
      | _ =>
        let p0 := cs.takeWhile notPathStop
        let qf := parseAfterPath (cs.dropWhile notPathStop)
        if cs.head? = some '/' then
          some { b with path := p0, query := qf.1, fragment := qf.2 }
        else
          some { b with path := dirOf b.path ++ p0, query := qf.1, fragment := qf.2 }
    else
      match cs with
      | [] => some { b with fragment := none }
      | '?' :: rest =>
        some { b with
          query := some (parseParams (rest.takeWhile (neChar '#'))),
          fragment := match rest.dropWhile (neChar '#') with
            | '#' :: u => some u
            | _ => none }
      | '#' :: rest => some { b with fragment := some rest }
      | _ => none

/-- `new URL(url, base)`: the base is parsed first and a failing base throws. -/
def jsUrl (url : List Char) (base : List Char) : Option UrlRec :=
  match parseAbs base with
  | none => none
  | some b => resolveRel url b

def serParams : List (List Char × List Char) → List Char
  | [] => []
  | [(k, v)] => k ++ '=' :: v
  | (k, v) :: kv :: rest => k ++ '=' :: v ++ '&' :: serParams (kv :: rest)

def serPort : Option (List Char) → List Char
  | some p => ':' :: p
  | none => []

def serQuery : Option (List (List Char × List Char)) → List Char
  | some l => '?' :: serParams l
  | none => []

def serFrag : Option (List Char) → List Char
  | some fr => '#' :: fr
  | none => []

/-- `url.href`: canonical serialization of the record. -/
def serializeUrl (r : UrlRec) : List Char :=
  r.scheme ++ ':' ::
  ((if r.hasAuth then '/' :: '/' :: (r.host ++ serPort r.port) else []) ++
   r.path ++ serQuery r.query ++ serFrag r.fragment)

/-! ### URL utilities of the scraper (`normalizeUrl`, `isSameDomain`,
`shouldIgnoreUrl`, `PRIORITY_PATTERNS`) -/

/-- The tracking query parameters removed by `normalizeUrl`. -/
def TRACKING_PARAMS : List (List Char) :=
  [strToL "gad_source", strToL "gad_campaignid", strToL "gbraid", strToL "gclid",
   strToL "utm_source", strToL "utm_medium", strToL "utm_campaign"]

/-- Parameter pairs that survive the tracking-parameter deletion. -/
def notTracking (kv : List Char × List Char) : Bool :=
  ¬ (kv.1 ∈ TRACKING_PARAMS)

/-- Effect of the seven `searchParams.delete(...)` calls: every pair with a
tracking name is removed and an emptied parameter list clears the query. -/
def cleanQuery :
    Option (List (List Char × List Char)) → Option (List (List Char × List Char))
  | none => none
  | some l =>
    if (l.filter notTracking).isEmpty then none else some (l.filter notTracking)

/-- `normalizeUrl(url, baseUrl)`: parse against the base, clear the fragment,
delete tracking parameters, return `href`; `null` when parsing throws. -/
def normalizeUrl (url baseUrl : List Char) : Option (List Char) :=
  match jsUrl url baseUrl with
  | none => none
  | some r => some (serializeUrl { r with fragment := none, query := cleanQuery r.query })

/-- `isSameDomain(baseUrl, targetUrl)`: both URLs must parse (target relative
to base) and the comparison is `base.hostname === target.hostname`. -/
def isSameDomain (baseUrl targetUrl : List Char) : Bool :=
  match parseAbs baseUrl with
  | none => false
  | some b =>
    match resolveRel targetUrl b with
    | none => false
    | some t => b.host = t.host

/-- `IGNORE_PATTERNS` whose regexes are unanchored case-insensitive literals. -/
def IGNORE_SUBSTRINGS : List (List Char) :=
  [strToL "blog", strToL "news", strToL "article", strToL "nunews",
   strToL "admin", strToL "login", strToL "signup", strToL "register",
   strToL "privacy", strToL "terms", strToL "cookie", strToL "gdpr",
   strToL "cart", strToL "checkout", strToL "payment",
   strToL "mailto:", strToL "tel:", strToL "javascript:"]

/-- `IGNORE_PATTERNS` whose regexes are `$`-anchored extensions. -/
def IGNORE_SUFFIXES : List (List Char) :=
  [strToL ".pdf", strToL ".jpg", strToL ".png", strToL ".gif"]

/-- `shouldIgnoreUrl(url)`: any ignore pattern matches the URL string
(the final `/#$/` pattern matches a URL ending in `#`). -/
def shouldIgnoreUrl (u : List Char) : Bool :=
  IGNORE_SUBSTRINGS.any (fun p => containsCI p u) ||
  IGNORE_SUFFIXES.any (fun p => suffixCI p u) ||
  u.getLast? = some '#'

/-- `PRIORITY_PATTERNS`: unanchored case-insensitive keyword regexes. -/
def PRIORITY_SUBSTRINGS : List (List Char) :=
  [strToL "cennik", strToL "price", strToL "ceny",
   strToL "sluzby", strToL "service", strToL "treatment",
   strToL "kontakt", strToL "contact",
   strToL "o-nas", strToL "about", strToL "team",
   strToL "ordinacne", strToL "hour", strToL "open",
   strToL "ludia", strToL "tym", strToL "personal", strToL "zamestnanci",
   strToL "lekari", strToL "lekar",
   strToL "doktori", strToL "odbornici", strToL "specialisti",
   strToL "nas-tym", strToL "nasi-lekari",
   strToL "doctors", strToL "staff", strToL "our-team",
   strToL "meet-the-team", strToL "practitioners",
   strToL "models", strToL "product", strToL "vozidl",
   strToL "sedan", strToL "suv", strToL "coupe", strToL "kombi",
   strToL "hatchback", strToL "electric", strToL "hybrid", strToL "overview"]

def isPriorityUrl (u : List Char) : Bool :=
  PRIORITY_SUBSTRINGS.any (fun p => containsCI p u)

/-! ### Round-trip infrastructure: parser outputs re-parse from their `href` -/

theorem takeWhile_append_all {p : Char → Bool} {a : List Char} (b : List Char)
    (h : ∀ c ∈ a, p c = true) : (a ++ b).takeWhile p = a ++ b.takeWhile p := by
  induction a with
  | nil => simp
  | cons x xs ih =>
    simp only [List.cons_append, List.takeWhile_cons]
    rw [h x (List.mem_cons_self x xs), ih (fun c hc => h c (List.mem_cons_of_mem x hc))]
    simp

theorem dropWhile_append_all {p : Char → Bool} {a : List Char} (b : List Char)
    (h : ∀ c ∈ a, p c = true) : (a ++ b).dropWhile p = b.dropWhile p := by
  induction a with
  | nil => simp
  | cons x xs ih =>
    simp only [List.cons_append, List.dropWhile_cons]
    rw [h x (List.mem_cons_self x xs)]
    exact ih (fun c hc => h c (List.mem_cons_of_mem x hc))

theorem mem_takeWhile_pred {p : Char → Bool} {l : List Char} {c : Char}
    (h : c ∈ l.takeWhile p) : p c = true := by
  induction l with
  | nil => simp at h
  | cons x xs ih =>
    rw [List.takeWhile_cons] at h
    by_cases hx : p x = true
    · rw [if_pos hx] at h
      rcases List.mem_cons.mp h with h | h
      · exact h ▸ hx
      · exact ih h
    · rw [if_neg hx] at h
      simp at h

theorem dropWhile_head_neg {p : Char → Bool} {l t : List Char} {c : Char}
    (h : l.dropWhile p = c :: t) : p c = false := by
  induction l with
  | nil => simp at h
  | cons x xs ih =>
    rw [List.dropWhile_cons] at h
    by_cases hx : p x = true
    · rw [if_pos hx] at h
      exact ih h
    · rw [if_neg hx] at h
      cases h
      exact Bool.not_eq_true _ ▸ (by simpa using hx)

/-- Pairs a query parameter list may contain after parsing. -/
def WfQueryPair (kv : List Char × List Char) : Prop :=
  '&' ∉ kv.1 ∧ '=' ∉ kv.1 ∧ '#' ∉ kv.1 ∧ '&' ∉ kv.2 ∧ '#' ∉ kv.2

/-- Invariant satisfied by every record the URL parser can produce; it is
exactly what is needed for `parseAbs (serializeUrl r) = some r`. -/
def UrlWf (r : UrlRec) : Prop :=
  (r.scheme ≠ [] ∧ (∀ c ∈ r.scheme, isSchemeChar c = true) ∧
   (∀ c t, r.scheme = c :: t → isAlphaC c = true) ∧ lowerL r.scheme = r.scheme) ∧
  (r.hasAuth = true →
     (∀ c ∈ r.host, notAuthStop c = true ∧ ¬ (c = ':')) ∧ lowerL r.host = r.host ∧
     (∀ p, r.port = some p → ¬ p.isEmpty ∧ p.all isDigitC = true ∧
        isDefaultPort r.scheme p = false) ∧
     (∃ t, r.path = '/' :: t) ∧ (∀ c ∈ r.path, notPathStop c = true)) ∧
  (r.hasAuth = false →
     r.host = [] ∧ r.port = none ∧ (∀ c ∈ r.path, notPathStop c = true) ∧
     (∀ t, ¬ (r.path = '/' :: '/' :: t))) ∧
  (∀ l, r.query = some l → ∀ kv ∈ l, WfQueryPair kv)

theorem neChar_of_ne {sep c : Char} (h : ¬ (c = sep)) : neChar sep c = true := by
  simp [neChar, h]

theorem all_neChar_of_not_mem {sep : Char} {a : List Char} (h : sep ∉ a) :
    ∀ c ∈ a, neChar sep c = true :=
  fun c hc => neChar_of_ne (fun he => h (he ▸ hc))

theorem splitFirst_not_mem {sep : Char} {a : List Char} (h : sep ∉ a) :
    splitFirst sep a = none := by
  unfold splitFirst
  have : a.dropWhile (neChar sep) = [] := by
    have := dropWhile_append_all (p := neChar sep) [] (all_neChar_of_not_mem h)
    simpa using this
  simp [this]

theorem splitFirst_append {sep : Char} {a b : List Char} (h : sep ∉ a) :
    splitFirst sep (a ++ sep :: b) = some (a, b) := by
  unfold splitFirst
  rw [dropWhile_append_all _ (all_neChar_of_not_mem h),
      takeWhile_append_all _ (all_neChar_of_not_mem h)]
  simp [neChar]

theorem parsePair_mk {k v : List Char} (h : '=' ∉ k) :
    parsePair (k ++ '=' :: v) = (k, v) := by
  unfold parsePair
  rw [splitFirst_append h]

theorem serParams_cons (k v : List Char) (rest : List (List Char × List Char)) :
    serParams ((k, v) :: rest) =
      k ++ '=' :: v ++ (match rest with
        | [] => []
        | _ :: _ => '&' :: serParams rest) := by
  cases rest with
  | nil => simp [serParams]
  | cons kv2 rest2 => rfl

theorem mem_serParams {l : List (List Char × List Char)} {c : Char}
    (hc : c ∈ serParams l) :
    c = '=' ∨ c = '&' ∨ (∃ kv ∈ l, c ∈ kv.1 ∨ c ∈ kv.2) := by
  induction l with
  | nil => simp [serParams] at hc
  | cons kv rest ih =>
    obtain ⟨k, v⟩ := kv
    cases rest with
    | nil =>
      simp only [serParams, List.mem_append, List.mem_cons] at hc
      rcases hc with h | h | h
      · exact Or.inr (Or.inr ⟨(k, v), by simp, Or.inl h⟩)
      · exact Or.inl h
      · exact Or.inr (Or.inr ⟨(k, v), by simp, Or.inr h⟩)
    | cons kv2 rest2 =>
      simp only [serParams, List.mem_append, List.mem_cons] at hc
      rcases hc with (h | h | h) | h | h
      · exact Or.inr (Or.inr ⟨(k, v), by simp, Or.inl h⟩)
      · exact Or.inl h
      · exact Or.inr (Or.inr ⟨(k, v), by simp, Or.inr h⟩)
      · exact Or.inr (Or.inl h)
      · rcases ih h with h | h | ⟨kv', hkv', hm⟩
        · exact Or.inl h
        · exact Or.inr (Or.inl h)
        · exact Or.inr (Or.inr ⟨kv', List.mem_cons_of_mem _ hkv', hm⟩)

theorem serParams_no_hash {l : List (List Char × List Char)}
    (h : ∀ kv ∈ l, WfQueryPair kv) : '#' ∉ serParams l := by
  intro hc
  rcases mem_serParams hc with he | he | ⟨kv, hkv, hm⟩
  · cases he
  · cases he
  · rcases h kv hkv with ⟨_, _, h1, _, h2⟩
    rcases hm with hm | hm
    · exact h1 hm
    · exact h2 hm

theorem dropWhile_nil_all {p : Char → Bool} {l : List Char}
    (h : l.dropWhile p = []) : ∀ c ∈ l, p c = true := by
  induction l with
  | nil => intro c hc; simp at hc
  | cons x xs ih =>
    rw [List.dropWhile_cons] at h
    by_cases hx : p x = true
    · rw [if_pos hx] at h
      intro c hc
      rcases List.mem_cons.mp hc with hc | hc
      · exact hc ▸ hx
      · exact ih h c hc
    · rw [if_neg hx] at h
      cases h

theorem splitFirst_none_all {sep : Char} {cs : List Char}
    (h : splitFirst sep cs = none) : sep ∉ cs := by
  intro hm
  unfold splitFirst at h
  cases hd : cs.dropWhile (neChar sep) with
  | cons c after => rw [hd] at h; cases h
  | nil =>
    have := dropWhile_nil_all hd sep hm
    simp [neChar] at this

theorem dropWhile_head_false {p : Char → Bool} :
    ∀ {l : List Char} {c : Char} {after : List Char},
      l.dropWhile p = c :: after → p c = false := by
  intro l
  induction l with
  | nil => intro c after h; cases h
  | cons x rest ih =>
    intro c after h
    by_cases hx : p x = true
    · rw [List.dropWhile_cons_of_pos hx] at h
      exact ih h
    · rw [List.dropWhile_cons_of_neg hx] at h
      cases h
      simpa using hx

/-- Full decomposition behind a successful `splitFirst`. -/
theorem splitFirst_decomp {sep : Char} {cs pre post : List Char}
    (h : splitFirst sep cs = some (pre, post)) :
    cs = pre ++ sep :: post ∧ sep ∉ pre := by
  unfold splitFirst at h
  cases hd : cs.dropWhile (neChar sep) with
  | nil => rw [hd] at h; cases h
  | cons c after =>
    rw [hd] at h
    simp only [Option.some.injEq, Prod.mk.injEq] at h
    obtain ⟨h1, h2⟩ := h
    have hcf : neChar sep c = false := dropWhile_head_false hd
    have hc : c = sep := by
      simpa [neChar] using hcf
    constructor
    · have hdec := List.takeWhile_append_dropWhile (p := neChar sep) (l := cs)
      rw [hd, h1, h2, hc] at hdec
      exact hdec.symm
    · intro hm
      rw [← h1] at hm
      have := mem_takeWhile_pred hm
      simp [neChar] at this

theorem splitAllAux_no_sep {sep : Char} :
    ∀ {cs : List Char}, sep ∉ cs → ∀ cur,
      splitAllAux sep cur cs = [cur.reverse ++ cs] := by
  intro cs
  induction cs with
  | nil => intro h cur; simp [splitAllAux]
  | cons c rest ih =>
    intro h cur
    have hc : ¬ (c = sep) := fun he => h (by simp [he])
    simp only [splitAllAux]
    rw [if_neg hc]
    rw [ih (fun hm => h (List.mem_cons_of_mem _ hm)) (c :: cur)]
    simp

theorem splitAllAux_sep {sep : Char} :
    ∀ {a : List Char}, sep ∉ a → ∀ cur (b : List Char),
      splitAllAux sep cur (a ++ sep :: b) =
        (cur.reverse ++ a) :: splitAllAux sep [] b := by
  intro a
  induction a with
  | nil =>
    intro h cur b
    show (if sep = sep then cur.reverse :: splitAllAux sep [] b
          else splitAllAux sep (sep :: cur) b) = _
    rw [if_pos rfl]
    simp
  | cons c rest ih =>
    intro h cur b
    have hc : ¬ (c = sep) := fun he => h (by simp [he])
    show (if c = sep then cur.reverse :: splitAllAux sep [] (rest ++ sep :: b)
          else splitAllAux sep (c :: cur) (rest ++ sep :: b)) = _
    rw [if_neg hc]
    rw [ih (fun hm => h (List.mem_cons_of_mem _ hm)) (c :: cur) b]
    simp

theorem parseParams_eq_none {cs : List Char} (h : splitFirst '&' cs = none) :
    parseParams cs = if cs.isEmpty then [] else [parsePair cs] := by
  have hmem : '&' ∉ cs := splitFirst_none_all h
  show ((splitAllAux '&' [] cs).filter (fun p => !(p.isEmpty))).map parsePair = _
  rw [splitAllAux_no_sep hmem []]
  cases cs with
  | nil => rfl
  | cons c rest => rfl

theorem parseParams_eq_some {cs part rest : List Char}
    (h : splitFirst '&' cs = some (part, rest)) :
    parseParams cs = (if part.isEmpty then [] else [parsePair part]) ++ parseParams rest := by
  obtain ⟨hcs, hnm⟩ := splitFirst_decomp h
  subst hcs
  show ((splitAllAux '&' [] (part ++ '&' :: rest)).filter
      (fun p => !(p.isEmpty))).map parsePair = _
  rw [splitAllAux_sep hnm [] rest]
  cases hp : part.isEmpty with
  | true => simp [hp, parseParams, splitAll, List.filter_cons]
  | false => simp [hp, parseParams, splitAll, List.filter_cons]

theorem parseParams_serParams {l : List (List Char × List Char)}
    (h : ∀ kv ∈ l, WfQueryPair kv) : parseParams (serParams l) = l := by
  induction l with
  | nil =>
    have : splitFirst '&' (serParams []) = none := splitFirst_not_mem (by simp [serParams])
    rw [parseParams_eq_none this]
    simp [serParams]
  | cons kv rest ih =>
    obtain ⟨k, v⟩ := kv
    rcases h (k, v) (by simp) with ⟨hk_amp, hk_eq, _, hv_amp, _⟩
    have hnomem : '&' ∉ k ++ '=' :: v := by
      intro hm
      rcases List.mem_append.mp hm with hm | hm
      · exact hk_amp hm
      · rcases List.mem_cons.mp hm with hm | hm
        · cases hm
        · exact hv_amp hm
    cases rest with
    | nil =>
      show parseParams (k ++ '=' :: v) = [(k, v)]
      rw [parseParams_eq_none (splitFirst_not_mem hnomem)]
      rw [if_neg (by simp), parsePair_mk hk_eq]
    | cons kv2 rest2 =>
      have hsplit : splitFirst '&' ((k ++ '=' :: v) ++ '&' :: serParams (kv2 :: rest2)) =
          some (k ++ '=' :: v, serParams (kv2 :: rest2)) := splitFirst_append hnomem
      have hgoal : serParams ((k, v) :: kv2 :: rest2) =
          (k ++ '=' :: v) ++ '&' :: serParams (kv2 :: rest2) := by
        show k ++ '=' :: v ++ '&' :: serParams (kv2 :: rest2) =
          (k ++ '=' :: v) ++ '&' :: serParams (kv2 :: rest2)
        simp
      rw [hgoal, parseParams_eq_some hsplit]
      rw [if_neg (by simp), parsePair_mk hk_eq]
      rw [ih (fun kv hkv => h kv (List.mem_cons_of_mem _ hkv))]
      rfl

theorem takeWhile_append_stop {p : Char → Bool} {a : List Char} {x : Char} (t : List Char)
    (ha : ∀ c ∈ a, p c = true) (hx : p x = false) :
    (a ++ x :: t).takeWhile p = a := by
  rw [takeWhile_append_all _ ha, List.takeWhile_cons, hx]
  simp

theorem dropWhile_append_stop {p : Char → Bool} {a : List Char} {x : Char} (t : List Char)
    (ha : ∀ c ∈ a, p c = true) (hx : p x = false) :
    (a ++ x :: t).dropWhile p = x :: t := by
  rw [dropWhile_append_all _ ha, List.dropWhile_cons, hx]
  simp

theorem takeScheme_ser {scheme : List Char} (t : List Char)
    (hne : scheme ≠ [])
    (hall : ∀ c ∈ scheme, isSchemeChar c = true)
    (hhead : ∀ c t', scheme = c :: t' → isAlphaC c = true) :
    takeScheme (scheme ++ ':' :: t) = some (scheme, t) := by
  have htake : (scheme ++ ':' :: t).takeWhile isSchemeChar = scheme :=
    takeWhile_append_stop t hall (by decide)
  have hdrop : (scheme ++ ':' :: t).dropWhile isSchemeChar = ':' :: t :=
    dropWhile_append_stop t hall (by decide)
  unfold takeScheme
  cases hs : scheme with
  | nil => exact absurd hs hne
  | cons c0 rest0 =>
    rw [hs] at htake hdrop
    rw [htake, hdrop]
    show (if isAlphaC c0 then some (c0 :: rest0, t) else none) = some (c0 :: rest0, t)
    rw [if_pos (hhead c0 rest0 hs)]

/-- The query-and-fragment tail serializes and re-parses exactly. -/
theorem parseAfterPath_ser (q : Option (List (List Char × List Char)))
    (f : Option (List Char))
    (hq : ∀ l, q = some l → ∀ kv ∈ l, WfQueryPair kv) :
    parseAfterPath (serQuery q ++ serFrag f) = (q, f) := by
  cases q with
  | none =>
    cases f with
    | none => rfl
    | some fr => rfl
  | some l =>
    have hwf := hq l rfl
    have hnohash : ∀ c ∈ serParams l, neChar '#' c = true :=
      all_neChar_of_not_mem (serParams_no_hash hwf)
    cases f with
    | none =>
      show parseAfterPath ('?' :: (serParams l ++ [])) = _
      rw [List.append_nil]
      show (some (parseParams ((serParams l).takeWhile (neChar '#'))),
            match (serParams l).dropWhile (neChar '#') with
            | '#' :: u => some u
            | _ => none) = _
      have ht : (serParams l).takeWhile (neChar '#') = serParams l := by
        have := takeWhile_append_all (p := neChar '#') [] hnohash
        simpa using this
      have hd : (serParams l).dropWhile (neChar '#') = [] := by
        have := dropWhile_append_all (p := neChar '#') [] hnohash
        simpa using this
      rw [ht, hd, parseParams_serParams hwf]
    | some fr =>
      show parseAfterPath ('?' :: (serParams l ++ '#' :: fr)) = _
      show (some (parseParams ((serParams l ++ '#' :: fr).takeWhile (neChar '#'))),
            match (serParams l ++ '#' :: fr).dropWhile (neChar '#') with
            | '#' :: u => some u
            | _ => none) = _
      rw [takeWhile_append_stop fr hnohash (by simp [neChar]),
          dropWhile_append_stop fr hnohash (by simp [neChar]),
          parseParams_serParams hwf]
      rfl

theorem splitPortA_ser (host : List Char) (port : Option (List Char))
    (hh : ':' ∉ host)
    (hp : ∀ p, port = some p → ¬ p.isEmpty ∧ p.all isDigitC = true) :
    splitPortA (host ++ serPort port) = some (host, port) := by
  cases port with
  | none =>
    show splitPortA (host ++ []) = _
    rw [List.append_nil]
    unfold splitPortA
    rw [splitFirst_not_mem hh]
  | some p =>
    rcases hp p rfl with ⟨hne, hdig⟩
    show splitPortA (host ++ ':' :: p) = _
    unfold splitPortA
    rw [splitFirst_append hh]
    show (if p.all isDigitC then (if p.isEmpty then some (host, none) else some (host, some p))
          else none) = some (host, some p)
    rw [if_pos hdig, if_neg (by simpa using hne)]

theorem notAuthStop_true {c : Char}
    (h1 : ¬ (c = '/')) (h2 : ¬ (c = '?')) (h3 : ¬ (c = '#')) : notAuthStop c = true := by
  simp [notAuthStop, h1, h2, h3]

theorem notAuthStop_of_digit {c : Char} (h : isDigitC c = true) : notAuthStop c = true := by
  refine notAuthStop_true ?_ ?_ ?_ <;> · intro he; exact absurd (he ▸ h) (by decide)

/-- The serialized query-fragment tail is empty or starts with `?` or `#`. -/
theorem qfTail_shape (q : Option (List (List Char × List Char))) (f : Option (List Char)) :
    serQuery q ++ serFrag f = [] ∨
    (∃ t', serQuery q ++ serFrag f = '?' :: t' ∨ serQuery q ++ serFrag f = '#' :: t') := by
  cases q with
  | some l => exact Or.inr ⟨_, Or.inl rfl⟩
  | none =>
    cases f with
    | some fr => exact Or.inr ⟨fr, Or.inr rfl⟩
    | none => exact Or.inl rfl

/-- Splitting the path off the serialized tail. -/
theorem takeWhile_path_qf {path tail : List Char}
    (hpathc : ∀ c ∈ path, notPathStop c = true)
    (htail : tail = [] ∨ ∃ t', tail = '?' :: t' ∨ tail = '#' :: t') :
    (path ++ tail).takeWhile notPathStop = path ∧
    (path ++ tail).dropWhile notPathStop = tail := by
  rcases htail with h | ⟨t', h | h⟩
  · subst h
    constructor
    · have := takeWhile_append_all (p := notPathStop) [] hpathc
      simpa using this
    · have := dropWhile_append_all (p := notPathStop) [] hpathc
      simpa using this
  · subst h
    exact ⟨takeWhile_append_stop t' hpathc (by decide),
           dropWhile_append_stop t' hpathc (by decide)⟩
  · subst h
    exact ⟨takeWhile_append_stop t' hpathc (by decide),
           dropWhile_append_stop t' hpathc (by decide)⟩

theorem port_default_id (scheme : List Char) (port : Option (List Char))
    (h : ∀ p, port = some p → isDefaultPort scheme p = false) :
    dropDefaultPort scheme port = port := by
  cases port with
  | none => rfl
  | some p =>
    show (if isDefaultPort scheme p then none else some p) = some p
    rw [h p rfl]
    rfl

theorem parseNetPath_ser (scheme host : List Char) (port : Option (List Char))
    (path : List Char) (q : Option (List (List Char × List Char))) (f : Option (List Char))
    (hhost : ∀ c ∈ host, notAuthStop c = true ∧ ¬ (c = ':'))
    (hlow : lowerL host = host)
    (hport : ∀ p, port = some p →
       ¬ p.isEmpty ∧ p.all isDigitC = true ∧ isDefaultPort scheme p = false)
    (hpath : ∃ t, path = '/' :: t)
    (hpathc : ∀ c ∈ path, notPathStop c = true)
    (hq : ∀ l, q = some l → ∀ kv ∈ l, WfQueryPair kv) :
    parseNetPath scheme
      ((host ++ serPort port) ++ (path ++ (serQuery q ++ serFrag f))) =
      some ⟨scheme, true, host, port, path, q, f⟩ := by
  obtain ⟨pt, hpt⟩ := hpath
  have hallA : ∀ c ∈ host ++ serPort port, notAuthStop c = true := by
    intro c hc
    rcases List.mem_append.mp hc with hc | hc
    · exact (hhost c hc).1
    · cases hport' : port with
      | none => rw [hport'] at hc; simp [serPort] at hc
      | some p =>
        rw [hport'] at hc
        rcases List.mem_cons.mp (by simpa [serPort] using hc) with hc | hc
        · subst hc; decide
        · rcases hport p hport' with ⟨_, hdig, _⟩
          exact notAuthStop_of_digit (by
            have := List.all_eq_true.mp hdig c hc
            simpa using this)
  have hBhead : path ++ (serQuery q ++ serFrag f) =
      '/' :: (pt ++ (serQuery q ++ serFrag f)) := by
    rw [hpt]
    rfl
  obtain ⟨htake, hdrop⟩ := takeWhile_path_qf hpathc (qfTail_shape q f)
  have hsp := splitPortA_ser host port (fun hm => (hhost ':' hm).2 rfl)
    (fun p hp => ⟨(hport p hp).1, (hport p hp).2.1⟩)
  unfold parseNetPath
  rw [hBhead, takeWhile_append_stop _ hallA (by decide),
      dropWhile_append_stop _ hallA (by decide), ← hBhead]
  simp only [hsp, htake, hdrop, hlow, parseAfterPath_ser q f hq,
    port_default_id scheme port (fun p hp => (hport p hp).2.2)]
  rw [if_neg (by rw [hpt]; simp)]

theorem opaque_no_slashslash (path tail : List Char)
    (hpp : ∀ t, ¬ (path = '/' :: '/' :: t))
    (htail : tail = [] ∨ ∃ t', tail = '?' :: t' ∨ tail = '#' :: t') :
    ∀ x, ¬ (path ++ tail = '/' :: '/' :: x) := by
  intro x hx
  cases path with
  | nil =>
    simp only [List.nil_append] at hx
    rcases htail with h | ⟨t', h | h⟩ <;> subst h <;> simp at hx
  | cons c1 pt =>
    rw [List.cons_append] at hx
    injection hx with h1 h2
    subst h1
    cases pt with
    | nil =>
      simp only [List.nil_append] at h2
      rcases htail with h | ⟨t', h | h⟩ <;> subst h <;> simp at h2
    | cons c2 pt2 =>
      rw [List.cons_append] at h2
      injection h2 with h3 h4
      subst h3
      exact hpp pt2 rfl

theorem parseAfterScheme_gen (scheme rest : List Char)
    (h : ∀ x, ¬ (rest = '/' :: '/' :: x)) :
    parseAfterScheme scheme rest =
      some ⟨scheme, false, [], none, rest.takeWhile notPathStop,
        (parseAfterPath (rest.dropWhile notPathStop)).1,
        (parseAfterPath (rest.dropWhile notPathStop)).2⟩ := by
  unfold parseAfterScheme
  split
  · rename_i rest1
    exact absurd rfl (h rest1)
  · rfl

/-- Round trip: every well-formed record re-parses from its serialization. -/
theorem parseAbs_serializeUrl (r : UrlRec) (h : UrlWf r) :
    parseAbs (serializeUrl r) = some r := by
  obtain ⟨sch, hasAuth, host, port, path, q, f⟩ := r
  obtain ⟨⟨hsne, hsall, hshead, hslow⟩, hauthT, hauthF, hq⟩ := h
  cases hasAuth with
  | true =>
    obtain ⟨hhost, hlow, hport, hpath, hpathc⟩ := hauthT rfl
    have hser : serializeUrl ⟨sch, true, host, port, path, q, f⟩ =
        sch ++ ':' ::
          ('/' :: '/' :: ((host ++ serPort port) ++ (path ++ (serQuery q ++ serFrag f)))) := by
      simp [serializeUrl, List.append_assoc]
    rw [hser]
    unfold parseAbs
    simp only [takeScheme_ser _ hsne hsall hshead]
    rw [hslow]
    show parseNetPath sch ((host ++ serPort port) ++ (path ++ (serQuery q ++ serFrag f))) = _
    exact parseNetPath_ser sch host port path q f hhost hlow hport hpath hpathc hq
  | false =>
    obtain ⟨hhost0, hport0, hpathc, hnoss⟩ := hauthF rfl
    subst hhost0
    subst hport0
    have hser : serializeUrl ⟨sch, false, [], none, path, q, f⟩ =
        sch ++ ':' :: (path ++ (serQuery q ++ serFrag f)) := by
      simp [serializeUrl, List.append_assoc]
    rw [hser]
    unfold parseAbs
    simp only [takeScheme_ser _ hsne hsall hshead]
    rw [hslow]
    rw [parseAfterScheme_gen sch _ (opaque_no_slashslash path _ hnoss (qfTail_shape q f))]
    obtain ⟨htake, hdrop⟩ := takeWhile_path_qf hpathc (qfTail_shape q f)
    rw [htake, hdrop, parseAfterPath_ser q f hq]

/-! ### The parser only produces well-formed records -/

theorem splitFirst_parts {sep : Char} {cs pre post : List Char}
    (h : splitFirst sep cs = some (pre, post)) :
    pre = cs.takeWhile (neChar sep) ∧ (∀ c ∈ post, c ∈ cs) := by
  unfold splitFirst at h
  cases hd : cs.dropWhile (neChar sep) with
  | nil => rw [hd] at h; cases h
  | cons c after =>
    rw [hd] at h
    simp only [Option.some.injEq, Prod.mk.injEq] at h
    refine ⟨h.1.symm, ?_⟩
    intro x hx
    have hsub : c :: after ⊆ cs := (hd ▸ List.dropWhile_sublist (p := neChar sep)).subset
    exact hsub (List.mem_cons_of_mem c (h.2 ▸ hx))

theorem mem_of_mem_takeWhile {p : Char → Bool} {l : List Char} {c : Char}
    (h : c ∈ l.takeWhile p) : c ∈ l :=
  (List.takeWhile_sublist p).subset h

theorem parsePair_wf {part : List Char} (hamp : '&' ∉ part) (hhash : '#' ∉ part) :
    WfQueryPair (parsePair part) := by
  unfold parsePair
  cases hs : splitFirst '=' part with
  | none =>
    have heq : '=' ∉ part := splitFirst_none_all hs
    exact ⟨hamp, heq, hhash, by simp, by simp⟩
  | some kv =>
    obtain ⟨k, v⟩ := kv
    obtain ⟨hk, hv⟩ := splitFirst_parts hs
    refine ⟨?_, ?_, ?_, ?_, ?_⟩
    · intro hm
      exact hamp (mem_of_mem_takeWhile (hk ▸ hm))
    · intro hm
      have := mem_takeWhile_pred (hk ▸ hm)
      simp [neChar] at this
    · intro hm
      exact hhash (mem_of_mem_takeWhile (hk ▸ hm))
    · intro hm
      exact hamp (hv '&' hm)
    · intro hm
      exact hhash (hv '#' hm)

theorem parseParams_wf_aux (n : Nat) :
    ∀ cs : List Char, cs.length ≤ n → '#' ∉ cs →
      ∀ kv ∈ parseParams cs, WfQueryPair kv := by
  induction n with
  | zero =>
    intro cs hlen hhash kv hkv
    have : cs = [] := List.length_eq_zero.mp (Nat.le_zero.mp hlen)
    subst this
    rw [parseParams_eq_none (splitFirst_not_mem (by simp))] at hkv
    simp at hkv
  | succ n ih =>
    intro cs hlen hhash kv hkv
    cases hs : splitFirst '&' cs with
    | none =>
      rw [parseParams_eq_none hs] at hkv
      by_cases hemp : cs.isEmpty
      · rw [if_pos hemp] at hkv
        simp at hkv
      · rw [if_neg hemp] at hkv
        rcases List.mem_singleton.mp hkv with h
        exact h ▸ parsePair_wf (splitFirst_none_all hs) hhash
    | some pr =>
      obtain ⟨part, rest⟩ := pr
      obtain ⟨hp, hr⟩ := splitFirst_parts hs
      rw [parseParams_eq_some hs] at hkv
      rcases List.mem_append.mp hkv with hm | hm
      · by_cases hemp : part.isEmpty
        · rw [if_pos hemp] at hm
          simp at hm
        · rw [if_neg hemp] at hm
          rcases List.mem_singleton.mp hm with h
          have hamp : '&' ∉ part := by
            intro hmm
            have := mem_takeWhile_pred (hp ▸ hmm)
            simp [neChar] at this
          have hhsh : '#' ∉ part := fun hmm => hhash (mem_of_mem_takeWhile (hp ▸ hmm))
          exact h ▸ parsePair_wf hamp hhsh
      · have hlt : rest.length ≤ n := by
          have := splitFirst_length hs
          omega
        exact ih rest hlt (fun hmm => hhash (hr '#' hmm)) kv hm

theorem parseParams_wf {cs : List Char} (hhash : '#' ∉ cs) :
    ∀ kv ∈ parseParams cs, WfQueryPair kv :=
  parseParams_wf_aux cs.length cs le_rfl hhash

theorem isAlphaC_toLower {c : Char} (h : isAlphaC c = true) :
    isAlphaC (Char.toLower c) = true := by
  have ht := toNat_toLower c
  simp only [isAlphaC, Bool.or_eq_true, Bool.and_eq_true, decide_eq_true_eq] at h ⊢
  by_cases hb : 65 ≤ c.toNat ∧ c.toNat ≤ 90
  · rw [if_pos hb] at ht
    omega
  · rw [if_neg hb] at ht
    omega

theorem isSchemeChar_toLower {c : Char} (h : isSchemeChar c = true) :
    isSchemeChar (Char.toLower c) = true := by
  rcases toLower_cases c with hfix | hrange
  · rwa [hfix]
  · have : isAlphaC (Char.toLower c) = true := by
      simp only [isAlphaC, Bool.or_eq_true, Bool.and_eq_true, decide_eq_true_eq]
      omega
    simp [isSchemeChar, this]

theorem ne_special_toLower {c d : Char} (hd : d.toNat < 97 ∨ 122 < d.toNat)
    (h : ¬ (c = d)) : ¬ (Char.toLower c = d) := by
  rcases toLower_cases c with hfix | hrange
  · rwa [hfix]
  · intro he
    rw [he] at hrange
    omega

theorem notAuthStop_toLower {c : Char} (h : notAuthStop c = true) :
    notAuthStop (Char.toLower c) = true := by
  simp only [notAuthStop, Bool.not_eq_eq_eq_not, Bool.not_true, Bool.or_eq_false_iff,
    beq_eq_false_iff_ne, ne_eq] at h ⊢
  obtain ⟨⟨h1, h2⟩, h3⟩ := h
  exact ⟨⟨ne_special_toLower (by decide) h1, ne_special_toLower (by decide) h2⟩,
         ne_special_toLower (by decide) h3⟩

theorem ne_colon_toLower {c : Char} (h : ¬ (c = ':')) : ¬ (Char.toLower c = ':') :=
  ne_special_toLower (by decide) h

/-- Inversion for `takeScheme`. -/
theorem takeScheme_inv {cs sch rest : List Char}
    (h : takeScheme cs = some (sch, rest)) :
    sch = cs.takeWhile isSchemeChar ∧ sch ≠ [] ∧
    (∀ c t, sch = c :: t → isAlphaC c = true) := by
  unfold takeScheme at h
  split at h
  · rename_i p0 pr rest' heq1 heq2
    split at h
    · rename_i ha
      simp only [Option.some.injEq, Prod.mk.injEq] at h
      obtain ⟨h1, _⟩ := h
      subst h1
      refine ⟨heq1.symm, by simp, ?_⟩
      intro c t hct
      cases hct
      exact ha
    · cases h
  · cases h

/-- Scheme component produced by `parseAbs` is well-formed. -/
theorem scheme_wf_of_takeScheme {cs sch rest : List Char}
    (h : takeScheme cs = some (sch, rest)) :
    lowerL sch ≠ [] ∧ (∀ c ∈ lowerL sch, isSchemeChar c = true) ∧
    (∀ c t, lowerL sch = c :: t → isAlphaC c = true) ∧ lowerL (lowerL sch) = lowerL sch := by
  obtain ⟨htw, hne, hhead⟩ := takeScheme_inv h
  refine ⟨?_, ?_, ?_, lowerL_idem _⟩
  · simpa [lowerL] using hne
  · intro c hcm
    simp only [lowerL, List.mem_map] at hcm
    obtain ⟨c', hc', rfl⟩ := hcm
    exact isSchemeChar_toLower (mem_takeWhile_pred (htw ▸ hc'))
  · cases hs : sch with
    | nil => exact absurd hs hne
    | cons p0 pr =>
      intro c t hct
      simp only [lowerL, List.map_cons] at hct
      cases hct
      exact isAlphaC_toLower (hhead p0 pr hs)

theorem splitPortA_inv {auth h0 : List Char} {port0 : Option (List Char)}
    (h : splitPortA auth = some (h0, port0)) :
    (∀ c ∈ h0, c ∈ auth ∧ ¬ (c = ':')) ∧
    (∀ p, port0 = some p → ¬ p.isEmpty ∧ p.all isDigitC = true) := by
  unfold splitPortA at h
  split at h
  · rename_i hnone
    simp only [Option.some.injEq, Prod.mk.injEq] at h
    obtain ⟨h1, h2⟩ := h
    subst h1
    subst h2
    have hcolon := splitFirst_none_all hnone
    exact ⟨fun c hc => ⟨hc, fun he => hcolon (he ▸ hc)⟩, fun p hp => by cases hp⟩
  · rename_i hh pp hsome
    obtain ⟨hpre, _⟩ := splitFirst_parts hsome
    split at h
    · rename_i hdig
      split at h
      · rename_i hemp
        simp only [Option.some.injEq, Prod.mk.injEq] at h
        obtain ⟨h1, h2⟩ := h
        subst h1
        subst h2
        refine ⟨?_, fun p hp => by cases hp⟩
        intro c hc
        rw [hpre] at hc
        refine ⟨mem_of_mem_takeWhile hc, ?_⟩
        have := mem_takeWhile_pred hc
        simp [neChar] at this
        exact this
      · rename_i hemp
        simp only [Option.some.injEq, Prod.mk.injEq] at h
        obtain ⟨h1, h2⟩ := h
        subst h1
        subst h2
        refine ⟨?_, ?_⟩
        · intro c hc
          rw [hpre] at hc
          refine ⟨mem_of_mem_takeWhile hc, ?_⟩
          have := mem_takeWhile_pred hc
          simp [neChar] at this
          exact this
        · intro p hp
          cases hp
          exact ⟨hemp, hdig⟩
    · cases h

theorem dropDefaultPort_inv {scheme : List Char} {port0 : Option (List Char)} {p : List Char}
    (h : dropDefaultPort scheme port0 = some p) :
    port0 = some p ∧ isDefaultPort scheme p = false := by
  cases port0 with
  | none => cases h
  | some p0 =>
    have h' : (if isDefaultPort scheme p0 then none else some p0) = some p := h
    by_cases hd : isDefaultPort scheme p0 = true
    · rw [if_pos hd] at h'
      cases h'
    · rw [if_neg hd] at h'
      cases h'
      exact ⟨rfl, Bool.not_eq_true _ ▸ (by simpa using hd)⟩

theorem takeWhile_cons_inv {p : Char → Bool} {l t : List Char} {c : Char}
    (h : l.takeWhile p = c :: t) : p c = true := by
  cases l with
  | nil => cases h
  | cons x xs =>
    rw [List.takeWhile_cons] at h
    by_cases hx : p x = true
    · rw [if_pos hx] at h
      cases h
      exact hx
    · rw [if_neg hx] at h
      cases h

theorem head_slash_of_stops {c : Char} (h1 : notAuthStop c = false) (h2 : notPathStop c = true) :
    c = '/' := by
  simp only [notAuthStop, Bool.not_eq_eq_eq_not, Bool.not_false, Bool.or_eq_true,
    beq_iff_eq] at h1
  simp only [notPathStop, Bool.not_eq_eq_eq_not, Bool.not_true, Bool.or_eq_false_iff,
    beq_eq_false_iff_ne, ne_eq] at h2
  rcases h1 with (h | h) | h
  · exact h
  · exact absurd h h2.1
  · exact absurd h h2.2

theorem parseAfterPath_wf {cs : List Char} {l : List (List Char × List Char)}
    (h : (parseAfterPath cs).1 = some l) : ∀ kv ∈ l, WfQueryPair kv := by
  unfold parseAfterPath at h
  split at h
  · rename_i rest
    simp only [Option.some.injEq] at h
    subst h
    apply parseParams_wf
    intro hm
    have := mem_takeWhile_pred hm
    simp [neChar] at this
  · cases h
  · cases h

/-- Conditions carried by a scheme string fed to the component parsers. -/
def SchemeOk (scheme : List Char) : Prop :=
  scheme ≠ [] ∧ (∀ c ∈ scheme, isSchemeChar c = true) ∧
  (∀ c t, scheme = c :: t → isAlphaC c = true) ∧ lowerL scheme = scheme

theorem parseNetPath_wf {scheme rest1 : List Char} {r : UrlRec}
    (hs : SchemeOk scheme) (h : parseNetPath scheme rest1 = some r) : UrlWf r := by
  unfold parseNetPath at h
  simp only [] at h
  split at h
  · cases h
  · rename_i h0 port0 hsp
    simp only [Option.some.injEq] at h
    subst h
    obtain ⟨hh0, hp0⟩ := splitPortA_inv hsp
    refine ⟨hs, ?_, ?_, ?_⟩
    · intro _
      dsimp only
      refine ⟨?_, lowerL_idem _, ?_, ?_, ?_⟩
      · intro c hc
        simp only [lowerL, List.mem_map] at hc
        obtain ⟨c', hc', rfl⟩ := hc
        obtain ⟨hmem, hne⟩ := hh0 c' hc'
        exact ⟨notAuthStop_toLower (mem_takeWhile_pred hmem), ne_colon_toLower hne⟩
      · intro p hp
        obtain ⟨hpo, hdef⟩ := dropDefaultPort_inv hp
        obtain ⟨hemp, hdig⟩ := hp0 p hpo
        exact ⟨hemp, hdig, hdef⟩
      · by_cases he : (List.takeWhile notPathStop (rest1.dropWhile notAuthStop)).isEmpty
        · rw [if_pos he]
          exact ⟨[], rfl⟩
        · rw [if_neg he]
          cases hp : List.takeWhile notPathStop (rest1.dropWhile notAuthStop) with
          | nil => rw [hp] at he; simp at he
          | cons c t =>
            have hstop := takeWhile_cons_inv hp
            have hrest2 : ∃ s, rest1.dropWhile notAuthStop = c :: (t ++ s) := by
              have hpre := List.takeWhile_prefix (l := rest1.dropWhile notAuthStop)
                (p := notPathStop)
              rw [hp] at hpre
              obtain ⟨s, hsuf⟩ := hpre
              exact ⟨s, by rw [← hsuf]; simp⟩
            obtain ⟨s, hs2⟩ := hrest2
            have hneg := dropWhile_head_neg hs2
            exact ⟨t, by rw [← head_slash_of_stops hneg hstop]⟩
      · by_cases he : (List.takeWhile notPathStop (rest1.dropWhile notAuthStop)).isEmpty
        · rw [if_pos he]
          intro c hc
          rcases List.mem_singleton.mp hc with rfl
          decide
        · rw [if_neg he]
          intro c hc
          exact mem_takeWhile_pred hc
    · intro hfalse
      cases hfalse
    · intro l hl
      exact parseAfterPath_wf hl

theorem parseAfterScheme_wf {scheme rest : List Char} {r : UrlRec}
    (hs : SchemeOk scheme) (h : parseAfterScheme scheme rest = some r) : UrlWf r := by
  unfold parseAfterScheme at h
  split at h
  · exact parseNetPath_wf hs h
  · rename_i hnoss
    simp only [Option.some.injEq] at h
    subst h
    refine ⟨hs, ?_, ?_, ?_⟩
    · intro htrue
      cases htrue
    · intro _
      dsimp only
      refine ⟨rfl, rfl, ?_, ?_⟩
      · intro c hc
        exact mem_takeWhile_pred hc
      · intro t hpp
        have hpre := List.takeWhile_prefix (l := rest) (p := notPathStop)
        rw [hpp] at hpre
        obtain ⟨s, hsuf⟩ := hpre
        exact hnoss (t ++ s) (by rw [← hsuf]; simp)
    · intro l hl
      exact parseAfterPath_wf hl

theorem parseAbs_wf {cs : List Char} {r : UrlRec} (h : parseAbs cs = some r) : UrlWf r := by
  unfold parseAbs at h
  split at h
  · cases h
  · rename_i sch rest heq
    obtain ⟨h1, h2, h3, h4⟩ := scheme_wf_of_takeScheme heq
    exact parseAfterScheme_wf ⟨h1, h2, h3, h4⟩ h

theorem wf_set_fragment {b : UrlRec} (h : UrlWf b) (f : Option (List Char)) :
    UrlWf { b with fragment := f } := h

theorem wf_set_query {b : UrlRec} (h : UrlWf b)
    (l : List (List Char × List Char)) (hl : ∀ kv ∈ l, WfQueryPair kv)
    (f : Option (List Char)) :
    UrlWf { b with query := some l, fragment := f } := by
  obtain ⟨h1, h2, h3, _⟩ := h
  refine ⟨h1, h2, h3, ?_⟩
  intro l' hl'
  simp only [Option.some.injEq] at hl'
  subst hl'
  exact hl

theorem mem_dirOf {p : List Char} {c : Char} (h : c ∈ dirOf p) : c ∈ p := by
  induction p with
  | nil => simp [dirOf] at h
  | cons x xs ih =>
    unfold dirOf at h
    by_cases hm : '/' ∈ xs
    · rw [if_pos hm] at h
      rcases List.mem_cons.mp h with h | h
      · exact h ▸ List.mem_cons_self x xs
      · exact List.mem_cons_of_mem x (ih h)
    · rw [if_neg hm] at h
      by_cases hx : x = '/'
      · rw [if_pos hx] at h
        rcases List.mem_singleton.mp h with rfl
        exact hx ▸ List.mem_cons_self x xs
      · rw [if_neg hx] at h
        simp at h

theorem dirOf_slash_head (t : List Char) : ∃ u, dirOf ('/' :: t) = '/' :: u := by
  unfold dirOf
  by_cases hm : '/' ∈ t
  · rw [if_pos hm]
    exact ⟨dirOf t, rfl⟩
  · rw [if_neg hm, if_pos rfl]
    exact ⟨[], rfl⟩

theorem parseParams_takeWhile_wf (rest : List Char) :
    ∀ kv ∈ parseParams (rest.takeWhile (neChar '#')), WfQueryPair kv := by
  apply parseParams_wf
  intro hm
  have := mem_takeWhile_pred hm
  simp [neChar] at this

theorem resolveRel_wf {cs : List Char} {b r : UrlRec}
    (hb : UrlWf b) (h : resolveRel cs b = some r) : UrlWf r := by
  unfold resolveRel at h
  split at h
  · exact parseAbs_wf h
  · by_cases hauth : b.hasAuth = true
    · rw [if_pos hauth] at h
      split at h
      · -- cs = []
        simp only [Option.some.injEq] at h
        subst h
        exact wf_set_fragment hb none
      · -- cs = '/' :: '/' :: rest1
        exact parseNetPath_wf hb.1 h
      · -- cs = '?' :: rest
        simp only [Option.some.injEq] at h
        subst h
        exact wf_set_query hb _ (parseParams_takeWhile_wf _) _
      · -- cs = '#' :: rest
        simp only [Option.some.injEq] at h
        subst h
        exact wf_set_fragment hb _
      · -- path reference
        simp only [] at h
        obtain ⟨hb1, hb2, hb3, hb4⟩ := hb
        obtain ⟨hhost, hlow, hport, hpath, hpathc⟩ := hb2 hauth
        by_cases hhead : cs.head? = some '/'
        · rw [if_pos hhead] at h
          simp only [Option.some.injEq] at h
          subst h
          refine ⟨hb1, ?_, ?_, ?_⟩
          · intro _
            dsimp only
            refine ⟨hhost, hlow, hport, ?_, ?_⟩
            · cases cs with
              | nil => simp at hhead
              | cons c0 cs' =>
                simp only [List.head?_cons, Option.some.injEq] at hhead
                subst hhead
                rw [List.takeWhile_cons, if_pos (by decide)]
                exact ⟨_, rfl⟩
            · intro c hc
              exact mem_takeWhile_pred hc
          · intro hfalse
            rw [hauth] at hfalse
            cases hfalse
          · intro l hl
            simp only [] at hl
            exact parseAfterPath_wf hl
        · rw [if_neg hhead] at h
          simp only [Option.some.injEq] at h
          subst h
          refine ⟨hb1, ?_, ?_, ?_⟩
          · intro _
            dsimp only
            refine ⟨hhost, hlow, hport, ?_, ?_⟩
            · obtain ⟨t, hpt⟩ := hpath
              rw [hpt]
              obtain ⟨u, hu⟩ := dirOf_slash_head t
              rw [hu]
              exact ⟨_, rfl⟩
            · intro c hc
              rcases List.mem_append.mp hc with hc | hc
              · exact hpathc c (mem_dirOf hc)
              · exact mem_takeWhile_pred hc
          · intro hfalse
            rw [hauth] at hfalse
            cases hfalse
          · intro l hl
            simp only [] at hl
            exact parseAfterPath_wf hl
    · rw [if_neg hauth] at h
      split at h
      · -- cs = []
        simp only [Option.some.injEq] at h
        subst h
        exact wf_set_fragment hb none
      · -- cs = '?' :: rest
        simp only [Option.some.injEq] at h
        subst h
        exact wf_set_query hb _ (parseParams_takeWhile_wf _) _
      · -- cs = '#' :: rest
        simp only [Option.some.injEq] at h
        subst h
        exact wf_set_fragment hb _
      · cases h

/-! ### Idempotence of `normalizeUrl` -/

theorem cleanQuery_wf {q : Option (List (List Char × List Char))} {b : UrlRec}
    (hb : UrlWf b) (hq : b.query = q) :
    UrlWf { b with query := cleanQuery q, fragment := none } := by
  obtain ⟨h1, h2, h3, h4⟩ := hb
  refine ⟨h1, h2, h3, ?_⟩
  intro l hl
  cases q with
  | none => cases hl
  | some l0 =>
    simp only [cleanQuery] at hl
    split at hl
    · cases hl
    · simp only [Option.some.injEq] at hl
      subst hl
      intro kv hkv
      exact h4 l0 hq kv (List.mem_filter.mp hkv).1

theorem filter_notTracking_idem (l : List (List Char × List Char)) :
    (l.filter notTracking).filter notTracking = l.filter notTracking :=
  List.filter_eq_self.mpr (fun kv hkv => (List.mem_filter.mp hkv).2)

theorem cleanQuery_idem (q : Option (List (List Char × List Char))) :
    cleanQuery (cleanQuery q) = cleanQuery q := by
  cases q with
  | none => rfl
  | some l =>
    show cleanQuery (if (l.filter notTracking).isEmpty then none
      else some (l.filter notTracking)) = _
    by_cases he : (l.filter notTracking).isEmpty
    · rw [if_pos he]
      show (none : Option (List (List Char × List Char))) =
        if (l.filter notTracking).isEmpty then none else some (l.filter notTracking)
      rw [if_pos he]
    · rw [if_neg he]
      show (if ((l.filter notTracking).filter notTracking).isEmpty then none
        else some ((l.filter notTracking).filter notTracking)) =
        (if (l.filter notTracking).isEmpty then none else some (l.filter notTracking))
      rw [filter_notTracking_idem]

theorem parseAbs_some_takeScheme {cs : List Char} {r : UrlRec}
    (h : parseAbs cs = some r) : ∃ x, takeScheme cs = some x := by
  unfold parseAbs at h
  split at h
  · cases h
  · rename_i sch rest heq
    exact ⟨(sch, rest), heq⟩

/-- Core idempotence: a normalized URL re-normalizes to itself. -/
theorem normalizeUrl_idem_core {u b v : List Char}
    (h : normalizeUrl u b = some v) : normalizeUrl v b = some v := by
  unfold normalizeUrl at h ⊢
  unfold jsUrl at h ⊢
  cases hB : parseAbs b with
  | none =>
    simp only [hB] at h
    cases h
  | some B =>
    simp only [hB] at h ⊢
    cases hr : resolveRel u B with
    | none =>
      simp only [hr] at h
      cases h
    | some r =>
      simp only [hr, Option.some.injEq] at h
      have hwfB : UrlWf B := parseAbs_wf hB
      have hwfr : UrlWf r := resolveRel_wf hwfB hr
      have hwf2 : UrlWf { r with query := cleanQuery r.query, fragment := none } :=
        cleanQuery_wf hwfr rfl
      have hround : parseAbs v = some { r with query := cleanQuery r.query, fragment := none } := by
        rw [← h]
        exact parseAbs_serializeUrl _ hwf2
      obtain ⟨x, hx⟩ := parseAbs_some_takeScheme hround
      have hres : resolveRel v B = some { r with query := cleanQuery r.query, fragment := none } := by
        unfold resolveRel
        rw [hx]
        exact hround
      rw [hres]
      simp only [Option.some.injEq]
      rw [← h]
      congr 1
      have hcq : cleanQuery (cleanQuery r.query) = cleanQuery r.query := cleanQuery_idem _
      cases r
      simp_all

/-! ### Sitemap discovery (`discoverSitemapUrls`)

`fetchText` (network) and `parseSitemapXml` (cheerio XML queries) are passed
as oracles; candidate bookkeeping, the robots.txt `Sitemap:` line scan, the
500-URL fetch guard and the final normalize/filter pipe follow the source. -/

/-- A parsed sitemap document: `<url><loc>` entries and `<sitemap><loc>` entries. -/
structure SitemapDoc where
  urls : List (List Char)
  sitemaps : List (List Char)

/-- `new URL(s, base-record).href`, total for the fixed paths the code resolves
(`/robots.txt`, `/sitemap.xml`, `/sitemap_index.xml` always resolve). -/
def hrefOf (s : List Char) (b : UrlRec) : List Char :=
  match resolveRel s b with
  | some r => serializeUrl r
  | none => []

/-- One robots.txt line matched against `/^\s*Sitemap:\s*(.+)\s*$/i`; the
capture requires at least one character after the colon and is trimmed. -/
def sitemapOfLine (line : List Char) : Option (List Char) :=
  let l1 := line.dropWhile isWsC
  if isPrefixL (lowerL (strToL "sitemap:")) (lowerL l1) then
    let rest := l1.drop 8
    if rest.isEmpty then none else some (trimL rest)
  else none

/-- Splits a text into `\n`-separated lines, as `robotsTxt.split('\n')`. -/
def splitLines (cs : List Char) : List (List Char) :=
  splitAll '\n' cs

/-- Set-insertion of all of `xs` into the insertion-ordered set `s`. -/
def addAllSet (s : List (List Char)) : List (List Char) → List (List Char)
  | [] => s
  | x :: xs => if x ∈ s then addAllSet s xs else addAllSet (s ++ [x]) xs

/-- Fetch loop of `discoverSitemapUrls`: pops `toFetch` while fewer than 500
URLs are discovered; child sitemaps not already candidates are enqueued.
`fuel` only totalizes the unbounded `while`; every claim is proved for all
fuel values. -/
def sitemapLoop (fetchText : List Char → Option (List Char))
    (parseSitemapXml : List Char → SitemapDoc) :
    Nat → List (List Char) → List (List Char) → List (List Char) → List (List Char)
  | 0, _, _, discovered => discovered
  | Nat.succ fuel, cands, toFetch, discovered =>
    match toFetch with
    | [] => discovered
    | u :: rest =>
      if discovered.length < 500 then
        match fetchText u with
        | none => sitemapLoop fetchText parseSitemapXml fuel cands rest discovered
        | some xml =>
          let doc := parseSitemapXml xml
          let discovered' := addAllSet discovered doc.urls
          let newOnes := (doc.sitemaps.filter (fun s => ¬ (s ∈ cands)))
          let cands' := addAllSet cands doc.sitemaps
          sitemapLoop fetchText parseSitemapXml fuel cands'
            (rest ++ dedupPreserve newOnes) discovered'
      else discovered

/-- `discoverSitemapUrls(startUrl)`: `none` models the `new URL(startUrl)`
constructor throwing on a malformed start URL. -/
def discoverSitemapUrls (fetchText : List Char → Option (List Char))
    (parseSitemapXml : List Char → SitemapDoc) (fuel : Nat)
    (startUrl : List Char) : Option (List (List Char)) :=
  match parseAbs startUrl with
  | none => none
  | some base =>
    let robotsTxt := fetchText (hrefOf (strToL "/robots.txt") base)
    let robotsCands := match robotsTxt with
      | some txt => (splitLines txt).filterMap sitemapOfLine
      | none => []
    let cands0 := addAllSet [] robotsCands
    let cands := if cands0.isEmpty then
        addAllSet [] [hrefOf (strToL "/sitemap.xml") base,
                      hrefOf (strToL "/sitemap_index.xml") base]
      else cands0
    let out := sitemapLoop fetchText parseSitemapXml fuel cands cands []
    some ((out.filterMap (fun u => normalizeUrl u startUrl)).filter
      (fun u => isSameDomain startUrl u && !(shouldIgnoreUrl u)))

/-! ### Page renderer (`scrapeSinglePage`)

The browser navigation/render/carousel work happens inside the `try` block
and is abstracted as a `render` oracle indexed by the attempt number and the
navigation timeout actually passed to `page.goto`; its error outcome carries
`error.name` and `error.message`.  Link extraction from the rendered document
(`nav a[href]` first, then `a[href]`) is part of the oracle's success payload;
the dedup / normalize / same-domain pipeline on those links is the source's. -/

inductive NavOutcome (π : Type) where
  | ok (pd : π) (navLinks allLinks : List (List Char))
  | err (name message : List Char)

/-- `error.name === 'TimeoutError' || /Timeout/i.test(error.message)`. -/
def isTimeoutErr (name message : List Char) : Bool :=
  name = strToL "TimeoutError" || containsCI (strToL "Timeout") message

/-- Link post-processing of a successful render. -/
def processLinks (url cleanStartUrl : List Char) (navLinks allLinks : List (List Char)) :
    List (List Char) :=
  ((dedupPreserve (navLinks ++ allLinks)).filterMap
    (fun href => normalizeUrl href url)).filter
    (fun href => isSameDomain cleanStartUrl href)

/-- The `for (let attempt = 1; attempt <= 2; attempt++)` retry loop; a second
attempt passes the doubled navigation timeout.  The fuel equals the number of
remaining loop iterations. -/
def scrapeAttempts {π : Type} (render : Nat → Nat → NavOutcome π)
    (url cleanStartUrl : List Char) (navTimeoutMs : Nat) :
    Nat → Nat → Option (π × List (List Char))
  | _, 0 => none
  | attempt, Nat.succ fuel =>
    match render attempt (if attempt = 1 then navTimeoutMs else navTimeoutMs * 2) with
    | NavOutcome.ok pd nav all => some (pd, processLinks url cleanStartUrl nav all)
    | NavOutcome.err nm msg =>
      if ¬ (attempt = 1 ∧ isTimeoutErr nm msg = true) then none
      else scrapeAttempts render url cleanStartUrl navTimeoutMs (attempt + 1) fuel

/-- `scrapeSinglePage(context, url, cleanStartUrl, navTimeoutMs, renderWaitMs)`:
`none` models the `return null` failure paths. -/
def scrapeSinglePage {π : Type} (render : Nat → Nat → NavOutcome π)
    (url cleanStartUrl : List Char) (navTimeoutMs : Nat) :
    Option (π × List (List Char)) :=
  scrapeAttempts render url cleanStartUrl navTimeoutMs 1 2

/-! ### Crawl controller (`scrapeClinicWebsite`)

Model parametrized by the per-URL scrape result (`scrape`, e.g. a closed-over
`scrapeSinglePage`) and the sitemap-discovery oracles.  The worker-pool
batching (`CONCURRENCY`) only chunks the per-depth URL list; results are folded
back in list order, so the flat list model is observationally identical.
`SCRAPER_MAX_PAGES` is taken unset, so `MAX_PAGES = maxPages`. -/

structure DispatchEntry where
  depth : Nat
  orig : List Char
  norm : List Char
deriving DecidableEq

/-- The frontier filter of one depth: skips URLs that fail to normalize, were
already visited or match an ignore pattern, and marks survivors visited
(`visited.add(normalized)`) before they are dispatched. -/
def markAndFilter (cleanStart : List Char) (visited : List (List Char)) :
    List (List Char) → List (List Char) × List (List Char × List Char)
  | [] => (visited, [])
  | u :: rest =>
    match normalizeUrl u cleanStart with
    | none => markAndFilter cleanStart visited rest
    | some n =>
      if n ∈ visited ∨ shouldIgnoreUrl n = true then
        markAndFilter cleanStart visited rest
      else
        ((markAndFilter cleanStart (n :: visited) rest).1,
         (u, n) :: (markAndFilter cleanStart (n :: visited) rest).2)

/-- Stable sort by the boolean priority flag (`PRIORITY_PATTERNS` comparator
`bPriority - aPriority` under JS's stable `Array.sort`): priority URLs first,
relative order preserved. -/
def prioritySort (ls : List (List Char)) : List (List Char) :=
  ls.filter isPriorityUrl ++ ls.filter (fun u => !(isPriorityUrl u))

/-- The depth loop of `scrapeClinicWebsite`.  Returns the collected page data
and the dispatch trace (depth, original URL, normalized URL).  The structural
`fuel` is `maxDepth + 1` at the top-level call, exactly the number of loop
iterations the `depth <= maxDepth` guard allows. -/
def crawlLoop {π : Type} (scrape : List Char → Option (π × List (List Char)))
    (cleanStart : List Char) (maxDepth maxPages : Nat) :
    Nat → Nat → List (List Char) → List π → List (List Char) →
    List π × List DispatchEntry
  | 0, _, _, pages, _ => (pages, [])
  | Nat.succ fuel, depth, visited, pages, frontier =>
    if depth > maxDepth ∨ pages.length ≥ maxPages then (pages, [])
    else
      let mf := markAndFilter cleanStart visited frontier
      let toScrape := mf.2.take (maxPages - pages.length)
      if toScrape.isEmpty then (pages, [])
      else
        let results := toScrape.map (fun p => (p, scrape p.1))
        let newPages := results.filterMap (fun pr => pr.2.map Prod.fst)
        let nextLinks := if depth < maxDepth then
            results.flatMap (fun pr => match pr.2 with
              | some (_, ls) => ls
              | none => [])
          else []
        let uniq := (dedupPreserve nextLinks).filter (fun u => ¬ (u ∈ mf.1))
        let rec0 := crawlLoop scrape cleanStart maxDepth maxPages fuel (depth + 1)
          mf.1 (pages ++ newPages) (prioritySort uniq)
        (rec0.1, toScrape.map (fun p => ⟨depth, p.1, p.2⟩) ++ rec0.2)

/-- `scrapeClinicWebsite(startUrl, maxDepth, maxPages, onProgress)`: `none`
models the crash when the start URL cannot be normalized (the sitemap
discoverer then throws on `new URL(null)`).  Returns the scraped pages and
the dispatch trace. -/
def scrapeClinicWebsite {π : Type} (fetchText : List Char → Option (List Char))
    (parseSitemapXml : List Char → SitemapDoc) (fuel : Nat)
    (scrape : List Char → Option (π × List (List Char)))
    (startUrl : List Char) (maxDepth maxPages : Nat) :
    Option (List π × List DispatchEntry) :=
  match normalizeUrl startUrl startUrl with
  | none => none
  | some cleanStartUrl =>
    match discoverSitemapUrls fetchText parseSitemapXml fuel cleanStartUrl with
    | none => none
    | some sitemapUrls =>
      some (crawlLoop scrape cleanStartUrl maxDepth maxPages (maxDepth + 1) 0 []
        [] (cleanStartUrl :: sitemapUrls))

/-! ### Profile merge (`mergeExtractedData`)

Embedding of `mergeExtractedData(llmData, regexData)` (the current variant with
`about` / `key_benefits` / merged FAQ).  JS strings are Lean `String`s here;
a nullable scalar string is modelled by `""` (both are falsy under `||`).
Fields whose value may be a non-array (`Array.isArray(x) ? x : []`) are
`Option` lists.  The pattern pass's `description` field on services is not
read by the merger, so one service shape with `category` suffices. -/

structure SvcItem where
  name : String
  price : String
  category : String
deriving DecidableEq

structure DocItem where
  name : String
  specialization : String
deriving DecidableEq

structure FaqItem where
  question : String
  answer : String
deriving DecidableEq

structure Draft where
  clinic_name : String
  address : String
  phone : String
  email : String
  opening_hours : String
  services : Option (List SvcItem)
  doctors : Option (List DocItem)
  faq : Option (List FaqItem)
  source_pages : List String
  raw_content : String
  about : String
  key_benefits : Option (List String)
  target_audience : String
  unique_approach : String
  testimonials_summary : String
  additional_info : String
deriving DecidableEq

/-- JS `a || b` on (possibly empty) strings. -/
def orStr (a b : String) : String := if a = "" then b else a

/-- `(svc.name || '').toLowerCase().trim()` (ASCII lowering and
whitespace trimming, spelled out on the character list so that it
computes by kernel reduction). -/
def svcKeyOf (s : SvcItem) : String := String.mk (trimL (lowerL s.name.data))

def docKeyOf (d : DocItem) : String := String.mk (trimL (lowerL d.name.data))

/-- The `addService` fold: pushes each item whose nonempty key is unseen. -/
def mergeDedupSvcs (seen : List String) : List SvcItem → List SvcItem
  | [] => []
  | s :: rest =>
    if svcKeyOf s = "" ∨ svcKeyOf s ∈ seen then mergeDedupSvcs seen rest
    else { name := s.name, price := s.price, category := s.category } ::
      mergeDedupSvcs (svcKeyOf s :: seen) rest

/-- The `addDoctor` fold. -/
def mergeDedupDocs (seen : List String) : List DocItem → List DocItem
  | [] => []
  | d :: rest =>
    if docKeyOf d = "" ∨ docKeyOf d ∈ seen then mergeDedupDocs seen rest
    else { name := d.name, specialization := d.specialization } ::
      mergeDedupDocs (docKeyOf d :: seen) rest

/-- `mergedServices`: LLM services first, then unseen regex services; the
regex list alone when the LLM list is empty. -/
def mergeServices (llmS regexS : List SvcItem) : List SvcItem :=
  if llmS.isEmpty then regexS else mergeDedupSvcs [] (llmS ++ regexS)

/-- `mergeExtractedData(llmData, regexData)`; `llmData = none` models the
`null` result of a failed LLM extraction. -/
def mergeExtractedData (llmData : Option Draft) (regexData : Draft) : Draft :=
  match llmData with
  | none => regexData
  | some l =>
    { clinic_name := orStr l.clinic_name regexData.clinic_name
      address := orStr l.address regexData.address
      phone := orStr l.phone regexData.phone
      email := orStr l.email regexData.email
      opening_hours := orStr l.opening_hours regexData.opening_hours
      services := some (mergeServices (l.services.getD []) (regexData.services.getD []))
      doctors := some (mergeDedupDocs [] ((l.doctors.getD []) ++ (regexData.doctors.getD [])))
      faq := some ((l.faq.getD []) ++ (regexData.faq.getD []))
      source_pages := regexData.source_pages
      raw_content := regexData.raw_content
      about := l.about
      key_benefits := some (l.key_benefits.getD [])
      target_audience := l.target_audience
      unique_approach := l.unique_approach
      testimonials_summary := l.testimonials_summary
      additional_info := l.additional_info }

/-- Deduplication by key, first occurrence kept — the specification's
"dedup-by-name", used to compare against the source's folds. -/
def dedupFirstByAux {α κ : Type} [DecidableEq κ] (key : α → κ) (seen : List κ) :
    List α → List α
  | [] => []
  | x :: rest =>
    if key x ∈ seen then dedupFirstByAux key seen rest
    else x :: dedupFirstByAux key (key x :: seen) rest

def dedupFirstBy {α κ : Type} [DecidableEq κ] (key : α → κ) (l : List α) : List α :=
  dedupFirstByAux key [] l

/-! ### Pattern normalizer (`extractServices`, `extractDoctors`)

The price items come from the scraped `page.prices` data; the two
`servicePatterns` regexes and the `doctorPattern` regex (with its
surrounding-context specialization search) are regex-engine effects and are
passed as match-stream oracles per page; name cleaning, length filters,
seen-set deduplication and the final doctors `slice(0, 30)` follow the source. -/

structure NPrice where
  text : List Char
  price : List Char
  service : Option (List Char)

structure NPage where
  url : List Char
  content : List Char
  prices : List NPrice

structure NSvc where
  name : List Char
  price : List Char
  description : List Char
deriving DecidableEq

structure NDoc where
  name : List Char
  specialization : List Char
deriving DecidableEq

/-- One `doctorPattern` match: the whole match (`match[0]`), the captured name
(`match[1]`) and the specialization found in the surrounding context. -/
structure DocMatch where
  m0 : List Char
  m1 : List Char
  spec : List Char

/-- `priceItem.text.split(/[:–-]/)[0]`. -/
def headBeforeSep (s : List Char) : List Char :=
  s.takeWhile (fun c => !(c == ':' || c == '–' || c == '-'))

/-- `.replace(/^\d+[\.\)]\s*/, '')`. -/
def stripNumbering (s : List Char) : List Char :=
  let ds := s.takeWhile isDigitC
  match ds, s.dropWhile isDigitC with
  | _ :: _, c :: r => if c = '.' ∨ c = ')' then r.dropWhile isWsC else s
  | _, _ => s

/-- `.replace(/\s+/g, ' ')`. -/
def collapseWsAux : Bool → List Char → List Char
  | _, [] => []
  | inWs, c :: rest =>
    if isWsC c then
      (if inWs then collapseWsAux true rest else ' ' :: collapseWsAux true rest)
    else c :: collapseWsAux false rest

def collapseWs (l : List Char) : List Char := collapseWsAux false l

/-- Raw name of a price item: `priceItem.service || text.split(...)[0].trim()`. -/
def priceItemName (it : NPrice) : List Char :=
  match it.service with
  | some sv => if sv.isEmpty then trimL (headBeforeSep it.text) else sv
  | none => trimL (headBeforeSep it.text)

/-- The cleaned service name of the first extraction pass. -/
def cleanSvcName (it : NPrice) : List Char :=
  trimL (collapseWs (stripNumbering (priceItemName it)))

/-- First pass of `extractServices`, over all pages' price items with the
shared seen-set; returns the final seen-set and the pushed services. -/
def svcPass1 (seen : List (List Char)) :
    List NPrice → List (List Char) × List NSvc
  | [] => (seen, [])
  | it :: rest =>
    if 3 < (cleanSvcName it).length ∧ (cleanSvcName it).length < 150 ∧
        ¬ (lowerL (cleanSvcName it) ∈ seen) then
      ((svcPass1 (lowerL (cleanSvcName it) :: seen) rest).1,
       ⟨cleanSvcName it, it.price, []⟩ :: (svcPass1 (lowerL (cleanSvcName it) :: seen) rest).2)
    else svcPass1 seen rest

/-- `/cennik|price|ceny|sluzby|service/i.test(page.url)`. -/
def urlIsPricing (u : List Char) : Bool :=
  [strToL "cennik", strToL "price", strToL "ceny", strToL "sluzby",
   strToL "service"].any (fun p => containsCI p u)

/-- Fold of one page's `servicePatterns` match stream (name capture, price
digits capture). -/
def svcMatchFold (seen : List (List Char)) :
    List (List Char × List Char) → List (List Char) × List NSvc
  | [] => (seen, [])
  | (n, p) :: rest =>
    if 4 < (trimL n).length ∧ (trimL n).length < 100 ∧ ¬ (lowerL (trimL n) ∈ seen) then
      ((svcMatchFold (lowerL (trimL n) :: seen) rest).1,
       ⟨trimL n, p ++ ['€'], []⟩ :: (svcMatchFold (lowerL (trimL n) :: seen) rest).2)
    else svcMatchFold seen rest

/-- Second pass of `extractServices`: content-pattern matches of pages whose
URL looks like a pricing page. -/
def svcPass2 (svcMatches : NPage → List (List Char × List Char))
    (seen : List (List Char)) : List NPage → List (List Char) × List NSvc
  | [] => (seen, [])
  | pg :: rest =>
    if urlIsPricing pg.url then
      ((svcPass2 svcMatches (svcMatchFold seen (svcMatches pg)).1 rest).1,
       (svcMatchFold seen (svcMatches pg)).2 ++
         (svcPass2 svcMatches (svcMatchFold seen (svcMatches pg)).1 rest).2)
    else svcPass2 svcMatches seen rest

/-- `extractServices(pages)`: both passes share one seen-set; no count cap. -/
def extractServices (svcMatches : NPage → List (List Char × List Char))
    (pages : List NPage) : List NSvc :=
  (svcPass1 [] (pages.flatMap (fun pg => pg.prices))).2 ++
  (svcPass2 svcMatches (svcPass1 [] (pages.flatMap (fun pg => pg.prices))).1 pages).2

/-- `match[1].split(/\s+/).pop()`: last whitespace-separated word, empty when
the string is empty or ends in whitespace. -/
def lastWordOf (s : List Char) : List Char :=
  (s.reverse.takeWhile (fun c => !(isWsC c))).reverse

/-- Surname key of a doctor match: `...pop().toLowerCase()`. -/
def docMatchKey (m : DocMatch) : List Char := lowerL (lastWordOf m.m1)

/-- `match[0].split(/[,]/)[0].trim()`. -/
def docFullName (m : DocMatch) : List Char :=
  trimL (m.m0.takeWhile (fun c => !(c == ',')))

/-- The doctor fold with the surname seen-set. -/
def docFold (seen : List (List Char)) : List DocMatch → List (List Char) × List NDoc
  | [] => (seen, [])
  | m :: rest =>
    if ¬ (docMatchKey m ∈ seen) then
      ((docFold (docMatchKey m :: seen) rest).1,
       ⟨docFullName m, m.spec⟩ :: (docFold (docMatchKey m :: seen) rest).2)
    else docFold seen rest

/-- `extractDoctors(pages)`: surname-deduplicated matches, capped by
`doctors.slice(0, 30)`. -/
def extractDoctors (docMatches : NPage → List DocMatch) (pages : List NPage) :
    List NDoc :=
  ((docFold [] (pages.flatMap docMatches)).2).take 30

/-- Specification-side service candidates of pass 1 (length-filtered). -/
def svcCand1 (pages : List NPage) : List NSvc :=
  ((pages.flatMap (fun pg => pg.prices)).map
    (fun it => (⟨cleanSvcName it, it.price, []⟩ : NSvc))).filter
    (fun s => 3 < s.name.length ∧ s.name.length < 150)

/-- Specification-side service candidates of pass 2 (length-filtered). -/
def svcCand2 (svcMatches : NPage → List (List Char × List Char))
    (pages : List NPage) : List NSvc :=
  (((pages.filter (fun pg => urlIsPricing pg.url)).flatMap svcMatches).map
    (fun nq => (⟨trimL nq.1, nq.2 ++ ['€'], []⟩ : NSvc))).filter
    (fun s => 4 < s.name.length ∧ s.name.length < 100)

/-- Specification-side extracted-services list: all candidates surviving
name-based deduplication, with no count cap. -/
def specServices (svcMatches : NPage → List (List Char × List Char))
    (pages : List NPage) : List NSvc :=
  dedupFirstBy (fun s => lowerL s.name) (svcCand1 pages ++ svcCand2 svcMatches pages)

/-- Specification-side extracted-staff list: all matches surviving
surname-based deduplication, with no count cap. -/
def specDoctors (docMatches : NPage → List DocMatch) (pages : List NPage) :
    List NDoc :=
  (dedupFirstBy docMatchKey (pages.flatMap docMatches)).map
    (fun m => ⟨docFullName m, m.spec⟩)


/-! ### Merge lemmas -/

/-- Seen-set after the `addService` fold. -/
def svcSeenAfter (seen : List String) : List SvcItem → List String
  | [] => seen
  | s :: rest =>
    if svcKeyOf s = "" ∨ svcKeyOf s ∈ seen then svcSeenAfter seen rest
    else svcSeenAfter (svcKeyOf s :: seen) rest

theorem mergeDedupSvcs_cons (seen : List String) (s : SvcItem) (rest : List SvcItem) :
    mergeDedupSvcs seen (s :: rest) =
      if svcKeyOf s = "" ∨ svcKeyOf s ∈ seen then mergeDedupSvcs seen rest
      else { name := s.name, price := s.price, category := s.category } ::
        mergeDedupSvcs (svcKeyOf s :: seen) rest := rfl

theorem svcSeenAfter_cons (seen : List String) (s : SvcItem) (rest : List SvcItem) :
    svcSeenAfter seen (s :: rest) =
      if svcKeyOf s = "" ∨ svcKeyOf s ∈ seen then svcSeenAfter seen rest
      else svcSeenAfter (svcKeyOf s :: seen) rest := rfl

theorem mergeDedupSvcs_append (seen : List String) (xs ys : List SvcItem) :
    mergeDedupSvcs seen (xs ++ ys) =
      mergeDedupSvcs seen xs ++ mergeDedupSvcs (svcSeenAfter seen xs) ys := by
  induction xs generalizing seen with
  | nil => rfl
  | cons s rest ih =>
    show mergeDedupSvcs seen (s :: (rest ++ ys)) = _
    rw [mergeDedupSvcs_cons, mergeDedupSvcs_cons, svcSeenAfter_cons]
    by_cases hk : svcKeyOf s = "" ∨ svcKeyOf s ∈ seen
    · rw [if_pos hk, if_pos hk, if_pos hk]
      exact ih seen
    · rw [if_neg hk, if_neg hk, if_neg hk, ih (svcKeyOf s :: seen)]
      rfl

theorem mem_svcSeenAfter {seen : List String} {xs : List SvcItem} {x : String}
    (h : x ∈ svcSeenAfter seen xs) : x ∈ seen ∨ x ∈ xs.map svcKeyOf := by
  induction xs generalizing seen with
  | nil => exact Or.inl h
  | cons s rest ih =>
    rw [svcSeenAfter_cons] at h
    by_cases hk : svcKeyOf s = "" ∨ svcKeyOf s ∈ seen
    · rw [if_pos hk] at h
      rcases ih h with h | h
      · exact Or.inl h
      · exact Or.inr (List.mem_cons_of_mem _ h)
    · rw [if_neg hk] at h
      rcases ih h with h | h
      · rcases List.mem_cons.mp h with h | h
        · exact Or.inr (h ▸ List.mem_cons_self _ _)
        · exact Or.inl h
      · exact Or.inr (List.mem_cons_of_mem _ h)

theorem mergeDedupSvcs_eq_dedupFirst {xs : List SvcItem}
    (hx : ∀ s ∈ xs, ¬ (svcKeyOf s = "")) (seen : List String) :
    mergeDedupSvcs seen xs = dedupFirstByAux svcKeyOf seen xs := by
  induction xs generalizing seen with
  | nil => rfl
  | cons s rest ih =>
    rw [mergeDedupSvcs_cons]
    show _ = dedupFirstByAux svcKeyOf seen (s :: rest)
    unfold dedupFirstByAux
    have hk : ¬ (svcKeyOf s = "") := hx s (List.mem_cons_self _ _)
    by_cases hm : svcKeyOf s ∈ seen
    · rw [if_pos (Or.inr hm), if_pos hm]
      exact ih (fun t ht => hx t (List.mem_cons_of_mem _ ht)) seen
    · rw [if_neg (by simp [hk, hm]), if_neg hm,
        ih (fun t ht => hx t (List.mem_cons_of_mem _ ht)) (svcKeyOf s :: seen)]

theorem mergeDedupSvcs_key_exists {s : SvcItem} {xs : List SvcItem}
    (hk : ¬ (svcKeyOf s = "")) :
    ∀ seen, svcKeyOf s ∉ seen → s ∈ xs →
      ∃ m ∈ mergeDedupSvcs seen xs, svcKeyOf m = svcKeyOf s := by
  induction xs with
  | nil => intro seen _ hmem; simp at hmem
  | cons x rest ih =>
    intro seen hseen hmem
    rw [mergeDedupSvcs_cons]
    by_cases hkey : svcKeyOf x = svcKeyOf s
    · rw [if_neg (by
        simp only [not_or]
        exact ⟨fun hc => hk (hkey ▸ hc), fun hc => hseen (hkey ▸ hc)⟩)]
      exact ⟨⟨x.name, x.price, x.category⟩, List.mem_cons_self _ _, hkey⟩
    · rcases List.mem_cons.mp hmem with h | h
      · exact absurd (congrArg svcKeyOf h.symm) hkey
      · by_cases hcond : svcKeyOf x = "" ∨ svcKeyOf x ∈ seen
        · rw [if_pos hcond]
          exact ih seen hseen h
        · rw [if_neg hcond]
          obtain ⟨m, hm, hmk⟩ := ih (svcKeyOf x :: seen)
            (by
              intro hc
              rcases List.mem_cons.mp hc with hc | hc
              · exact hkey hc.symm
              · exact hseen hc) h
          exact ⟨m, List.mem_cons_of_mem _ hm, hmk⟩

/-! ### Normalizer lemmas -/

/-- Seen-set evolution of `dedupFirstByAux`. -/
def dedupSeenAfter {α κ : Type} [DecidableEq κ] (key : α → κ) (seen : List κ) :
    List α → List κ
  | [] => seen
  | x :: rest =>
    if key x ∈ seen then dedupSeenAfter key seen rest
    else dedupSeenAfter key (key x :: seen) rest

theorem dedupFirstByAux_cons {α κ : Type} [DecidableEq κ] (key : α → κ)
    (seen : List κ) (x : α) (rest : List α) :
    dedupFirstByAux key seen (x :: rest) =
      if key x ∈ seen then dedupFirstByAux key seen rest
      else x :: dedupFirstByAux key (key x :: seen) rest := rfl

theorem dedupSeenAfter_cons {α κ : Type} [DecidableEq κ] (key : α → κ)
    (seen : List κ) (x : α) (rest : List α) :
    dedupSeenAfter key seen (x :: rest) =
      if key x ∈ seen then dedupSeenAfter key seen rest
      else dedupSeenAfter key (key x :: seen) rest := rfl

theorem dedupFirstByAux_append {α κ : Type} [DecidableEq κ] (key : α → κ)
    (seen : List κ) (xs ys : List α) :
    dedupFirstByAux key seen (xs ++ ys) =
      dedupFirstByAux key seen xs ++
        dedupFirstByAux key (dedupSeenAfter key seen xs) ys := by
  induction xs generalizing seen with
  | nil => rfl
  | cons x rest ih =>
    show dedupFirstByAux key seen (x :: (rest ++ ys)) = _
    rw [dedupFirstByAux_cons, dedupFirstByAux_cons, dedupSeenAfter_cons]
    by_cases hk : key x ∈ seen
    · rw [if_pos hk, if_pos hk, if_pos hk]
      exact ih seen
    · rw [if_neg hk, if_neg hk, if_neg hk, ih (key x :: seen)]
      rfl

/-- Length filter of the first extraction pass. -/
def svcLen1 (s : NSvc) : Prop := 3 < s.name.length ∧ s.name.length < 150

instance (s : NSvc) : Decidable (svcLen1 s) := by
  unfold svcLen1
  infer_instance

/-- Length filter of the second extraction pass. -/
def svcLen2 (s : NSvc) : Prop := 4 < s.name.length ∧ s.name.length < 100

instance (s : NSvc) : Decidable (svcLen2 s) := by
  unfold svcLen2
  infer_instance

def nsvcKey (s : NSvc) : List Char := lowerL s.name

theorem svcPass1_cons (seen : List (List Char)) (it : NPrice) (rest : List NPrice) :
    svcPass1 seen (it :: rest) =
      if 3 < (cleanSvcName it).length ∧ (cleanSvcName it).length < 150 ∧
          ¬ (lowerL (cleanSvcName it) ∈ seen) then
        ((svcPass1 (lowerL (cleanSvcName it) :: seen) rest).1,
         ⟨cleanSvcName it, it.price, []⟩ ::
           (svcPass1 (lowerL (cleanSvcName it) :: seen) rest).2)
      else svcPass1 seen rest := rfl

theorem svcPass1_spec (items : List NPrice) :
    ∀ seen, svcPass1 seen items =
      (dedupSeenAfter nsvcKey seen
        (((items.map (fun it => (⟨cleanSvcName it, it.price, []⟩ : NSvc))).filter
          (fun s => svcLen1 s))),
       dedupFirstByAux nsvcKey seen
        (((items.map (fun it => (⟨cleanSvcName it, it.price, []⟩ : NSvc))).filter
          (fun s => svcLen1 s)))) := by
  induction items with
  | nil => intro seen; rfl
  | cons it rest ih =>
    intro seen
    show svcPass1 seen (it :: rest) = _
    simp only [List.map_cons, List.filter_cons]
    by_cases hlen : svcLen1 (⟨cleanSvcName it, it.price, []⟩ : NSvc)
    · rw [if_pos (by simpa using hlen)]
      rw [dedupSeenAfter_cons, dedupFirstByAux_cons]
      obtain ⟨h1, h2⟩ := hlen
      simp only [] at h1 h2
      by_cases hseen : nsvcKey (⟨cleanSvcName it, it.price, []⟩ : NSvc) ∈ seen
      · rw [if_pos hseen, if_pos hseen]
        have hcond : ¬ (3 < (cleanSvcName it).length ∧ (cleanSvcName it).length < 150 ∧
            ¬ (lowerL (cleanSvcName it) ∈ seen)) := by
          simp only [not_and, not_not]
          intro _ _
          exact hseen
        rw [svcPass1_cons, if_neg hcond]
        exact ih seen
      · rw [if_neg hseen, if_neg hseen]
        have hcond : 3 < (cleanSvcName it).length ∧ (cleanSvcName it).length < 150 ∧
            ¬ (lowerL (cleanSvcName it) ∈ seen) := ⟨h1, h2, hseen⟩
        rw [svcPass1_cons, if_pos hcond, ih (lowerL (cleanSvcName it) :: seen)]
        rfl
    · rw [if_neg (by simpa using hlen)]
      have hcond : ¬ (3 < (cleanSvcName it).length ∧ (cleanSvcName it).length < 150 ∧
          ¬ (lowerL (cleanSvcName it) ∈ seen)) := by
        simp only [svcLen1, not_and] at hlen ⊢
        intro ha hb
        exact absurd hb (hlen ha)
      rw [svcPass1_cons, if_neg hcond]
      exact ih seen

theorem svcMatchFold_cons (seen : List (List Char)) (n p : List Char)
    (rest : List (List Char × List Char)) :
    svcMatchFold seen ((n, p) :: rest) =
      if 4 < (trimL n).length ∧ (trimL n).length < 100 ∧
          ¬ (lowerL (trimL n) ∈ seen) then
        ((svcMatchFold (lowerL (trimL n) :: seen) rest).1,
         ⟨trimL n, p ++ ['€'], []⟩ :: (svcMatchFold (lowerL (trimL n) :: seen) rest).2)
      else svcMatchFold seen rest := rfl

theorem svcMatchFold_spec (ms : List (List Char × List Char)) :
    ∀ seen, svcMatchFold seen ms =
      (dedupSeenAfter nsvcKey seen
        ((ms.map (fun nq => (⟨trimL nq.1, nq.2 ++ ['€'], []⟩ : NSvc))).filter
          (fun s => svcLen2 s)),
       dedupFirstByAux nsvcKey seen
        ((ms.map (fun nq => (⟨trimL nq.1, nq.2 ++ ['€'], []⟩ : NSvc))).filter
          (fun s => svcLen2 s))) := by
  induction ms with
  | nil => intro seen; rfl
  | cons nq rest ih =>
    intro seen
    obtain ⟨n, p⟩ := nq
    simp only [List.map_cons, List.filter_cons]
    by_cases hlen : svcLen2 (⟨trimL n, p ++ ['€'], []⟩ : NSvc)
    · rw [if_pos (by simpa using hlen)]
      rw [dedupSeenAfter_cons, dedupFirstByAux_cons]
      obtain ⟨h1, h2⟩ := hlen
      simp only [] at h1 h2
      by_cases hseen : nsvcKey (⟨trimL n, p ++ ['€'], []⟩ : NSvc) ∈ seen
      · rw [if_pos hseen, if_pos hseen]
        rw [svcMatchFold_cons, if_neg (by
          simp only [not_and, not_not]
          intro _ _
          exact hseen)]
        exact ih seen
      · rw [if_neg hseen, if_neg hseen]
        rw [svcMatchFold_cons, if_pos ⟨h1, h2, hseen⟩, ih (lowerL (trimL n) :: seen)]
        rfl
    · rw [if_neg (by simpa using hlen)]
      rw [svcMatchFold_cons, if_neg (by
        simp only [svcLen2, not_and] at hlen ⊢
        intro ha hb
        exact absurd hb (hlen ha))]
      exact ih seen

theorem dedupSeenAfter_append {α κ : Type} [DecidableEq κ] (key : α → κ)
    (seen : List κ) (xs ys : List α) :
    dedupSeenAfter key seen (xs ++ ys) =
      dedupSeenAfter key (dedupSeenAfter key seen xs) ys := by
  induction xs generalizing seen with
  | nil => rfl
  | cons x rest ih =>
    show dedupSeenAfter key seen (x :: (rest ++ ys)) = _
    rw [dedupSeenAfter_cons, dedupSeenAfter_cons]
    by_cases hk : key x ∈ seen
    · rw [if_pos hk, if_pos hk]
      exact ih seen
    · rw [if_neg hk, if_neg hk]
      exact ih (key x :: seen)

theorem svcPass2_cons (svcMatches : NPage → List (List Char × List Char))
    (seen : List (List Char)) (pg : NPage) (rest : List NPage) :
    svcPass2 svcMatches seen (pg :: rest) =
      if urlIsPricing pg.url then
        ((svcPass2 svcMatches (svcMatchFold seen (svcMatches pg)).1 rest).1,
         (svcMatchFold seen (svcMatches pg)).2 ++
           (svcPass2 svcMatches (svcMatchFold seen (svcMatches pg)).1 rest).2)
      else svcPass2 svcMatches seen rest := rfl

theorem svcPass2_spec (svcMatches : NPage → List (List Char × List Char))
    (pages : List NPage) :
    ∀ seen, svcPass2 svcMatches seen pages =
      (dedupSeenAfter nsvcKey seen
        ((((pages.filter (fun pg => urlIsPricing pg.url)).flatMap svcMatches).map
          (fun nq => (⟨trimL nq.1, nq.2 ++ ['€'], []⟩ : NSvc))).filter
          (fun s => svcLen2 s)),
       dedupFirstByAux nsvcKey seen
        ((((pages.filter (fun pg => urlIsPricing pg.url)).flatMap svcMatches).map
          (fun nq => (⟨trimL nq.1, nq.2 ++ ['€'], []⟩ : NSvc))).filter
          (fun s => svcLen2 s))) := by
  induction pages with
  | nil => intro seen; rfl
  | cons pg rest ih =>
    intro seen
    rw [svcPass2_cons]
    by_cases hp : urlIsPricing pg.url = true
    · rw [if_pos hp]
      simp only [List.filter_cons, hp, if_pos, List.flatMap_cons, List.map_append,
        List.filter_append]
      rw [svcMatchFold_spec (svcMatches pg) seen, ih _,
        dedupFirstByAux_append, dedupSeenAfter_append]
    · rw [if_neg hp]
      simp only [List.filter_cons, hp]
      rw [ih seen]
      simp

theorem docFold_cons (seen : List (List Char)) (m : DocMatch) (rest : List DocMatch) :
    docFold seen (m :: rest) =
      if ¬ (docMatchKey m ∈ seen) then
        ((docFold (docMatchKey m :: seen) rest).1,
         ⟨docFullName m, m.spec⟩ :: (docFold (docMatchKey m :: seen) rest).2)
      else docFold seen rest := rfl

theorem docFold_spec (ms : List DocMatch) :
    ∀ seen, docFold seen ms =
      (dedupSeenAfter docMatchKey seen ms,
       (dedupFirstByAux docMatchKey seen ms).map
         (fun m => (⟨docFullName m, m.spec⟩ : NDoc))) := by
  induction ms with
  | nil => intro seen; rfl
  | cons m rest ih =>
    intro seen
    rw [docFold_cons, dedupSeenAfter_cons, dedupFirstByAux_cons]
    by_cases hk : docMatchKey m ∈ seen
    · rw [if_neg (by simpa using hk), if_pos hk, if_pos hk]
      exact ih seen
    · rw [if_pos (by simpa using hk), if_neg hk, if_neg hk, ih (docMatchKey m :: seen)]
      rfl

/-! ### Crawl-loop lemmas -/

theorem markAndFilter_inv (cleanStart : List Char) :
    ∀ (frontier : List (List Char)) (visited : List (List Char)),
      (∀ x ∈ visited, x ∈ (markAndFilter cleanStart visited frontier).1) ∧
      (((markAndFilter cleanStart visited frontier).2.map Prod.snd).Nodup) ∧
      (∀ pr ∈ (markAndFilter cleanStart visited frontier).2,
        pr.2 ∉ visited ∧ pr.2 ∈ (markAndFilter cleanStart visited frontier).1 ∧
        normalizeUrl pr.1 cleanStart = some pr.2 ∧ shouldIgnoreUrl pr.2 = false) := by
  intro frontier
  induction frontier with
  | nil =>
    intro visited
    exact ⟨fun x hx => hx, by simp [markAndFilter], by simp [markAndFilter]⟩
  | cons u rest ih =>
    intro visited
    cases hn : normalizeUrl u cleanStart with
    | none =>
      simp only [markAndFilter, hn]
      exact ih visited
    | some n =>
      by_cases hskip : n ∈ visited ∨ shouldIgnoreUrl n = true
      · simp only [markAndFilter, hn, if_pos hskip]
        exact ih visited
      · simp only [markAndFilter, hn, if_neg hskip]
        obtain ⟨ih1, ih2, ih3⟩ := ih (n :: visited)
        refine ⟨?_, ?_, ?_⟩
        · intro x hx
          exact ih1 x (List.mem_cons_of_mem _ hx)
        · simp only [List.map_cons]
          refine List.Nodup.cons ?_ ih2
          intro hmem
          simp only [List.mem_map] at hmem
          obtain ⟨pr, hpr, hpr2⟩ := hmem
          exact (ih3 pr hpr).1 (hpr2 ▸ List.mem_cons_self n visited)
        · intro pr hpr
          rcases List.mem_cons.mp hpr with h | h
          · subst h
            refine ⟨?_, ih1 n (List.mem_cons_self _ _), hn, ?_⟩
            · intro hv
              exact hskip (Or.inl hv)
            · rcases Bool.eq_false_or_eq_true (shouldIgnoreUrl n) with hb | hb
              · exact absurd (Or.inr hb) hskip
              · exact hb
          · obtain ⟨hn1, hn2, hn3⟩ := ih3 pr h
            exact ⟨fun hv => hn1 (List.mem_cons_of_mem _ hv), hn2, hn3⟩

theorem crawlLoop_succ {π : Type} (scrape : List Char → Option (π × List (List Char)))
    (cleanStart : List Char) (maxDepth maxPages fuel depth : Nat)
    (visited : List (List Char)) (pages : List π) (frontier : List (List Char)) :
    crawlLoop scrape cleanStart maxDepth maxPages (Nat.succ fuel) depth visited pages
        frontier =
      if depth > maxDepth ∨ pages.length ≥ maxPages then (pages, [])
      else if ((markAndFilter cleanStart visited frontier).2.take
          (maxPages - pages.length)).isEmpty then (pages, [])
      else
        ((crawlLoop scrape cleanStart maxDepth maxPages fuel (depth + 1)
            (markAndFilter cleanStart visited frontier).1
            (pages ++ (((markAndFilter cleanStart visited frontier).2.take
                (maxPages - pages.length)).map
                (fun p => (p, scrape p.1))).filterMap (fun pr => pr.2.map Prod.fst))
            (prioritySort ((dedupPreserve
                (if depth < maxDepth then
                  (((markAndFilter cleanStart visited frontier).2.take
                    (maxPages - pages.length)).map
                    (fun p => (p, scrape p.1))).flatMap (fun pr => match pr.2 with
                      | some (_, ls) => ls
                      | none => [])
                else [])).filter
              (fun u => ¬ (u ∈ (markAndFilter cleanStart visited frontier).1))))).1,
         (((markAndFilter cleanStart visited frontier).2.take
            (maxPages - pages.length)).map
            (fun p => (⟨depth, p.1, p.2⟩ : DispatchEntry))) ++
         (crawlLoop scrape cleanStart maxDepth maxPages fuel (depth + 1)
            (markAndFilter cleanStart visited frontier).1
            (pages ++ (((markAndFilter cleanStart visited frontier).2.take
                (maxPages - pages.length)).map
                (fun p => (p, scrape p.1))).filterMap (fun pr => pr.2.map Prod.fst))
            (prioritySort ((dedupPreserve
                (if depth < maxDepth then
                  (((markAndFilter cleanStart visited frontier).2.take
                    (maxPages - pages.length)).map
                    (fun p => (p, scrape p.1))).flatMap (fun pr => match pr.2 with
                      | some (_, ls) => ls
                      | none => [])
                else [])).filter
              (fun u => ¬ (u ∈ (markAndFilter cleanStart visited frontier).1))))).2) := rfl

theorem crawlLoop_inv {π : Type} (scrape : List Char → Option (π × List (List Char)))
    (cleanStart : List Char) (maxDepth maxPages : Nat) :
    ∀ (fuel depth : Nat) (visited : List (List Char)) (pages : List π)
      (frontier : List (List Char)),
      pages.length ≤ maxPages →
      (crawlLoop scrape cleanStart maxDepth maxPages fuel depth visited pages
        frontier).1.length ≤ maxPages ∧
      ((crawlLoop scrape cleanStart maxDepth maxPages fuel depth visited pages
        frontier).2.map DispatchEntry.norm).Nodup ∧
      (∀ e ∈ (crawlLoop scrape cleanStart maxDepth maxPages fuel depth visited pages
        frontier).2, e.norm ∉ visited ∧ e.depth ≤ maxDepth ∧
        normalizeUrl e.orig cleanStart = some e.norm ∧ shouldIgnoreUrl e.norm = false) := by
  intro fuel
  induction fuel with
  | zero =>
    intro depth visited pages frontier hp
    exact ⟨hp, by simp [crawlLoop], by simp [crawlLoop]⟩
  | succ fuel ih =>
    intro depth visited pages frontier hp
    rw [crawlLoop_succ]
    by_cases hstop : depth > maxDepth ∨ pages.length ≥ maxPages
    · rw [if_pos hstop]
      exact ⟨hp, by simp, by simp⟩
    · rw [if_neg hstop]
      by_cases hempty : ((markAndFilter cleanStart visited frontier).2.take
          (maxPages - pages.length)).isEmpty
      · rw [if_pos hempty]
        exact ⟨hp, by simp, by simp⟩
      · rw [if_neg hempty]
        obtain ⟨hm1, hm2, hm3⟩ := markAndFilter_inv cleanStart frontier visited
        have htake_sub : ∀ pr ∈ (markAndFilter cleanStart visited frontier).2.take
            (maxPages - pages.length), pr ∈ (markAndFilter cleanStart visited frontier).2 :=
          fun pr hpr => (List.take_sublist _ _).subset hpr
        have hlen' : (pages ++ ((((markAndFilter cleanStart visited frontier).2.take
            (maxPages - pages.length)).map (fun p => (p, scrape p.1))).filterMap
            (fun pr => pr.2.map Prod.fst))).length ≤ maxPages := by
          have h1 : ((((markAndFilter cleanStart visited frontier).2.take
              (maxPages - pages.length)).map (fun p => (p, scrape p.1))).filterMap
              (fun pr => pr.2.map Prod.fst)).length ≤
              ((markAndFilter cleanStart visited frontier).2.take
                (maxPages - pages.length)).length := by
            calc ((((markAndFilter cleanStart visited frontier).2.take
                (maxPages - pages.length)).map (fun p => (p, scrape p.1))).filterMap
                (fun pr => pr.2.map Prod.fst)).length
                ≤ (((markAndFilter cleanStart visited frontier).2.take
                    (maxPages - pages.length)).map (fun p => (p, scrape p.1))).length :=
                  List.length_filterMap_le _ _
              _ = _ := List.length_map _ _
          have h2 : ((markAndFilter cleanStart visited frontier).2.take
              (maxPages - pages.length)).length ≤ maxPages - pages.length :=
            (List.length_take_le _ _)
          simp only [List.length_append]
          omega
        obtain ⟨hr1, hr2, hr3⟩ := ih (depth + 1)
          (markAndFilter cleanStart visited frontier).1 _ _ hlen'
        refine ⟨hr1, ?_, ?_⟩
        · simp only [List.map_append]
          refine List.Nodup.append ?_ hr2 ?_
          · have : (((markAndFilter cleanStart visited frontier).2.take
                (maxPages - pages.length)).map
                (fun p => (⟨depth, p.1, p.2⟩ : DispatchEntry))).map DispatchEntry.norm =
                ((markAndFilter cleanStart visited frontier).2.take
                  (maxPages - pages.length)).map Prod.snd := by
              simp [List.map_map, Function.comp_def]
            rw [this]
            exact ((List.take_sublist _ _).map Prod.snd).nodup hm2
          · intro x hx hy
            simp only [List.map_map, List.mem_map, Function.comp_def] at hx
            obtain ⟨pr, hpr, hprx⟩ := hx
            simp only [List.mem_map] at hy
            obtain ⟨e, he, hex⟩ := hy
            have hein := (hr3 e he).1
            have hin : pr.2 ∈ (markAndFilter cleanStart visited frontier).1 :=
              (hm3 pr (htake_sub pr hpr)).2.1
            rw [hprx] at hin
            rw [← hex] at hin
            exact hein hin
        · intro e he
          rcases List.mem_append.mp he with h | h
          · simp only [List.mem_map] at h
            obtain ⟨pr, hpr, hpre⟩ := h
            obtain ⟨hn1, _, hn3, hn4⟩ := hm3 pr (htake_sub pr hpr)
            subst hpre
            exact ⟨hn1, (by omega : depth ≤ maxDepth), hn3, hn4⟩
          · obtain ⟨he1, he2, he3, he4⟩ := hr3 e h
            refine ⟨?_, he2, he3, he4⟩
            intro hv
            exact he1 (hm1 e.norm hv)

/-- The collected pages are exactly the per-trace-entry scrape successes: a
failing page contributes nothing and the rest of the crawl is unaffected. -/
theorem crawlLoop_pages {π : Type} (scrape : List Char → Option (π × List (List Char)))
    (cleanStart : List Char) (maxDepth maxPages : Nat) :
    ∀ (fuel depth : Nat) (visited : List (List Char)) (pages : List π)
      (frontier : List (List Char)),
      (crawlLoop scrape cleanStart maxDepth maxPages fuel depth visited pages
        frontier).1 = pages ++
        ((crawlLoop scrape cleanStart maxDepth maxPages fuel depth visited pages
          frontier).2).filterMap (fun e => (scrape e.orig).map Prod.fst) := by
  intro fuel
  induction fuel with
  | zero =>
    intro depth visited pages frontier
    simp [crawlLoop]
  | succ fuel ih =>
    intro depth visited pages frontier
    rw [crawlLoop_succ]
    by_cases hstop : depth > maxDepth ∨ pages.length ≥ maxPages
    · rw [if_pos hstop]
      simp
    · rw [if_neg hstop]
      by_cases hempty : ((markAndFilter cleanStart visited frontier).2.take
          (maxPages - pages.length)).isEmpty
      · rw [if_pos hempty]
        simp
      · rw [if_neg hempty]
        rw [ih]
        simp only [List.filterMap_append, List.filterMap_map, List.map_map]
        rw [List.append_assoc]
        simp [Function.comp_def]

/-! ### Sitemap discovery lemmas -/

/-- Every URL returned by `discoverSitemapUrls` came out of the final
normalize-and-filter pipe. -/
theorem discoverSitemapUrls_mem {fetchText : List Char → Option (List Char)}
    {parseSitemapXml : List Char → SitemapDoc} {fuel : Nat}
    {startUrl : List Char} {res : List (List Char)} {u : List Char}
    (h : discoverSitemapUrls fetchText parseSitemapXml fuel startUrl = some res)
    (hu : u ∈ res) :
    (∃ orig, normalizeUrl orig startUrl = some u) ∧
    isSameDomain startUrl u = true ∧ shouldIgnoreUrl u = false := by
  unfold discoverSitemapUrls at h
  split at h
  · cases h
  · simp only [Option.some.injEq] at h
    subst h
    obtain ⟨hmem, hcond⟩ := List.mem_filter.mp hu
    obtain ⟨orig, _, hnorm⟩ := List.mem_filterMap.mp hmem
    simp only [Bool.and_eq_true, Bool.not_eq_eq_eq_not, Bool.not_true] at hcond
    exact ⟨⟨orig, hnorm⟩, hcond.1, hcond.2⟩

/-! ### Retry-loop lemmas (`scrapeSinglePage`) -/

theorem scrapeAttempts_succ {π : Type} (render : Nat → Nat → NavOutcome π)
    (url cleanStartUrl : List Char) (navTimeoutMs attempt fuel : Nat) :
    scrapeAttempts render url cleanStartUrl navTimeoutMs attempt (Nat.succ fuel) =
      match render attempt (if attempt = 1 then navTimeoutMs else navTimeoutMs * 2) with
      | NavOutcome.ok pd nav all => some (pd, processLinks url cleanStartUrl nav all)
      | NavOutcome.err nm msg =>
        (if ¬ (attempt = 1 ∧ isTimeoutErr nm msg = true) then none
         else scrapeAttempts render url cleanStartUrl navTimeoutMs (attempt + 1) fuel) :=
  rfl

/-- Successful first attempt returns the page with post-processed links. -/
theorem scrapeSinglePage_ok {π : Type} {render : Nat → Nat → NavOutcome π}
    {url cleanStartUrl : List Char} {t : Nat} {pd : π} {nav all : List (List Char)}
    (h : render 1 t = NavOutcome.ok pd nav all) :
    scrapeSinglePage render url cleanStartUrl t =
      some (pd, processLinks url cleanStartUrl nav all) := by
  unfold scrapeSinglePage
  rw [scrapeAttempts_succ]
  simp [h]

/-- Timeout-classified first failure: exactly one retry, with the doubled
navigation timeout; the retry's outcome decides the result. -/
theorem scrapeSinglePage_timeout {π : Type} {render : Nat → Nat → NavOutcome π}
    {url cleanStartUrl : List Char} {t : Nat} {nm msg : List Char}
    (h : render 1 t = NavOutcome.err nm msg) (ht : isTimeoutErr nm msg = true) :
    scrapeSinglePage render url cleanStartUrl t =
      (match render 2 (t * 2) with
       | NavOutcome.ok pd nav all => some (pd, processLinks url cleanStartUrl nav all)
       | NavOutcome.err _ _ => none) := by
  unfold scrapeSinglePage
  rw [scrapeAttempts_succ]
  rw [if_pos rfl, h]
  show (if ¬ ((1 : Nat) = 1 ∧ isTimeoutErr nm msg = true) then none
        else scrapeAttempts render url cleanStartUrl t (1 + 1) 1) = _
  rw [if_neg (by simp [ht])]
  rw [scrapeAttempts_succ]
  rw [if_neg (by decide : ¬ ((2 : Nat) = 1))]
  cases h2 : render 2 (t * 2) with
  | ok pd nav all => rfl
  | err nm2 msg2 =>
    show (if ¬ ((2 : Nat) = 1 ∧ isTimeoutErr nm2 msg2 = true) then none
          else scrapeAttempts render url cleanStartUrl t (2 + 1) 0) = _
    rw [if_pos (by simp)]

/-- A non-timeout first failure is not retried: the result is `none`. -/
theorem scrapeSinglePage_fail {π : Type} {render : Nat → Nat → NavOutcome π}
    {url cleanStartUrl : List Char} {t : Nat} {nm msg : List Char}
    (h : render 1 t = NavOutcome.err nm msg) (ht : isTimeoutErr nm msg = false) :
    scrapeSinglePage render url cleanStartUrl t = none := by
  unfold scrapeSinglePage
  rw [scrapeAttempts_succ]
  simp [h, ht]

/-! ### Concrete instances

Small closed oracles and drafts used to evaluate the development on concrete
inputs (counterexamples and witnesses). -/

def emptyDraft : Draft :=
  { clinic_name := "", address := "", phone := "", email := "", opening_hours := ""
    services := none, doctors := none, faq := none, source_pages := []
    raw_content := "", about := "", key_benefits := none, target_audience := ""
    unique_approach := "", testimonials_summary := "", additional_info := "" }

/-- An LLM draft whose single service has an empty name (`addService` drops it). -/
def cxLlm2 : Draft :=
  { emptyDraft with services := some [{ name := "", price := "100 eur", category := "" }] }

/-- An LLM draft with no FAQ and a pattern draft with one FAQ entry. -/
def cxPat7 : Draft :=
  { emptyDraft with faq := some [{ question := "Kde sidlite?", answer := "Bratislava" }] }

/-- Doctor-regex oracle: 31 matches with 31 distinct surnames on one page. -/
def cxDocM6 : NPage → List DocMatch := fun _ =>
  (List.range 31).map (fun n =>
    ⟨strToL "Dr. A S" ++ Nat.toDigits 10 n, strToL "A S" ++ Nat.toDigits 10 n, []⟩)

def cxPages6 : List NPage := [⟨[], [], []⟩]

/-- Fetch oracle that never answers (no robots.txt, no sitemaps). -/
def wFetch1 : List Char → Option (List Char) := fun _ => none

def wParse1 : List Char → SitemapDoc := fun _ => ⟨[], []⟩

/-- Scrape oracle that fails on every URL. -/
def wScrape1 : List Char → Option (Nat × List (List Char)) := fun _ => none

/-- Renderer that times out on the first attempt and succeeds on the second. -/
def wRender3 : Nat → Nat → NavOutcome Nat := fun attempt _ =>
  if attempt = 1 then NavOutcome.err (strToL "TimeoutError") (strToL "nav timeout")
  else NavOutcome.ok 5 [] []

/-- Sitemap oracle for the witness: one sitemap with one relative loc. -/
def wFetch10 : List Char → Option (List Char) := fun u =>
  if u = strToL "http://a/sitemap.xml" then some [] else none

def wParse10 : List Char → SitemapDoc := fun _ => ⟨[strToL "/x"], []⟩

/-! ### Claim theorems -/

/-- C1: in every successful run of `scrapeClinicWebsite`, no normalized URL is
dispatched to the renderer twice (the normalized URLs of the dispatch trace
are pairwise distinct), the list of successfully collected pages never grows
beyond `maxPages`, and every dispatch happens at depth at most `maxDepth`. -/
theorem scrapeClinicWebsite_invariants {π : Type}
    (fetchText : List Char → Option (List Char))
    (parseSitemapXml : List Char → SitemapDoc) (fuel : Nat)
    (scrape : List Char → Option (π × List (List Char)))
    (startUrl : List Char) (maxDepth maxPages : Nat)
    (pages : List π) (trace : List DispatchEntry)
    (h : scrapeClinicWebsite fetchText parseSitemapXml fuel scrape startUrl
      maxDepth maxPages = some (pages, trace)) :
    (trace.map DispatchEntry.norm).Nodup ∧ pages.length ≤ maxPages ∧
    ∀ e ∈ trace, e.depth ≤ maxDepth := by
  unfold scrapeClinicWebsite at h
  split at h
  · cases h
  next cs hcs =>
    split at h
    · cases h
    next sm hsm =>
      have h' : crawlLoop scrape cs maxDepth maxPages (maxDepth + 1) 0 [] []
          (cs :: sm) = (pages, trace) := by
        injection h
      have inv := crawlLoop_inv scrape cs maxDepth maxPages (maxDepth + 1) 0 [] []
        (cs :: sm) (by simp)
      rw [h'] at inv
      exact ⟨inv.2.1, inv.1, fun e he => (inv.2.2 e he).2.1⟩

theorem scrapeClinicWebsite_invariants_witness :
    (([⟨0, strToL "http://a/", strToL "http://a/"⟩] : List DispatchEntry).map
      DispatchEntry.norm).Nodup ∧
    ([] : List Nat).length ≤ 3 ∧
    ∀ e ∈ ([⟨0, strToL "http://a/", strToL "http://a/"⟩] : List DispatchEntry),
      e.depth ≤ 1 :=
  scrapeClinicWebsite_invariants wFetch1 wParse1 3 wScrape1 (strToL "http://a/") 1 3
    [] [⟨0, strToL "http://a/", strToL "http://a/"⟩] (by rfl)

def wLlm2 : Draft :=
  { emptyDraft with services := some [{ name := "Botox", price := "100", category := "" }] }

def wPat2 : Draft :=
  { emptyDraft with services := some [{ name := "Filler", price := "50", category := "" }] }

/-- C2 counterexample: an LLM service whose name is empty is dropped by the
merger's `addService` (empty keys are skipped), so the merged services list
can be strictly shorter than the LLM services list deduplicated by
lower-cased trimmed name. -/
theorem mergeServices_drops_empty_name :
    ((mergeExtractedData (some cxLlm2) emptyDraft).services.getD []).length <
      (dedupFirstBy svcKeyOf (cxLlm2.services.getD [])).length := by decide

/-- C2 (amended): when every LLM service has a nonempty lower-cased trimmed
name, the merged services list of `mergeExtractedData` is at least as long as
the LLM services list deduplicated by that name, and every pattern service
with a nonempty name that occurs among no LLM service's names is represented
in the merged list by an entry with the same name key. -/
theorem mergeExtractedData_services_amended (l p : Draft)
    (hl : ∀ s ∈ l.services.getD [], ¬ (svcKeyOf s = "")) :
    (dedupFirstBy svcKeyOf (l.services.getD [])).length ≤
      ((mergeExtractedData (some l) p).services.getD []).length ∧
    (∀ s ∈ p.services.getD [], ¬ (svcKeyOf s = "") →
      (∀ t ∈ l.services.getD [], ¬ (svcKeyOf t = svcKeyOf s)) →
      ∃ t ∈ (mergeExtractedData (some l) p).services.getD [],
        svcKeyOf t = svcKeyOf s) := by
  have hres : (mergeExtractedData (some l) p).services =
      some (mergeServices (l.services.getD []) (p.services.getD [])) := rfl
  rw [hres]
  simp only [Option.getD_some]
  unfold mergeServices
  by_cases he : (l.services.getD []).isEmpty
  · rw [if_pos he]
    have hnil : l.services.getD [] = [] := List.isEmpty_iff.mp he
    constructor
    · rw [hnil]
      simp [dedupFirstBy, dedupFirstByAux]
    · intro s hs hk _
      exact ⟨s, hs, rfl⟩
  · rw [if_neg he]
    rw [mergeDedupSvcs_append]
    constructor
    · unfold dedupFirstBy
      rw [← mergeDedupSvcs_eq_dedupFirst hl []]
      simp [List.length_append]
    · intro s hs hk hnot
      have hseen : svcKeyOf s ∉ svcSeenAfter [] (l.services.getD []) := by
        intro hmem
        rcases mem_svcSeenAfter hmem with h | h
        · simp at h
        · obtain ⟨t, ht, hteq⟩ := List.mem_map.mp h
          exact hnot t ht hteq
      obtain ⟨m, hm, hmeq⟩ := mergeDedupSvcs_key_exists hk _ hseen hs
      exact ⟨m, List.mem_append_right _ hm, hmeq⟩

theorem mergeExtractedData_services_amended_witness :
    (dedupFirstBy svcKeyOf (wLlm2.services.getD [])).length ≤
      ((mergeExtractedData (some wLlm2) wPat2).services.getD []).length ∧
    (∀ s ∈ wPat2.services.getD [], ¬ (svcKeyOf s = "") →
      (∀ t ∈ wLlm2.services.getD [], ¬ (svcKeyOf t = svcKeyOf s)) →
      ∃ t ∈ (mergeExtractedData (some wLlm2) wPat2).services.getD [],
        svcKeyOf t = svcKeyOf s) :=
  mergeExtractedData_services_amended wLlm2 wPat2 (by decide)

def cxRenderA : Nat → Nat → NavOutcome Nat := fun _ _ =>
  NavOutcome.err (strToL "EvalError") (strToL "boom")

def cxRenderB : Nat → Nat → NavOutcome Nat := fun _ _ =>
  NavOutcome.err (strToL "TimeoutError") (strToL "nav timeout")

/-- C3 counterexample: two failing renders for different URLs and with
different failure reasons produce the very same result value `none` — the
failure path of `scrapeSinglePage` returns a bare null that carries neither
the failed URL nor the failure reason. -/
theorem scrapeSinglePage_failure_bare :
    scrapeSinglePage cxRenderA (strToL "http://a/x") (strToL "http://a/") 7 =
      scrapeSinglePage cxRenderB (strToL "http://b/y") (strToL "http://b/") 9 ∧
    ¬ (strToL "http://a/x" = strToL "http://b/y") := by decide

/-- C3 (amended): the retry policy holds — a successful first attempt yields
the page with its post-processed links; a timeout-classified first failure is
retried exactly once with the navigation timeout doubled, the retry's outcome
deciding the result; a non-timeout first failure is not retried and yields
`none`; and a failed page is dropped without halting the crawl (the page list
of a finished crawl is exactly the successful scrapes of its dispatch trace).
The failure value itself is a bare `none`, carrying neither URL nor reason. -/
theorem scrapeSinglePage_retry_amended {π : Type}
    (render : Nat → Nat → NavOutcome π) (url cleanStartUrl : List Char) (t : Nat) :
    (∀ pd nav all, render 1 t = NavOutcome.ok pd nav all →
      scrapeSinglePage render url cleanStartUrl t =
        some (pd, processLinks url cleanStartUrl nav all)) ∧
    (∀ nm msg, render 1 t = NavOutcome.err nm msg → isTimeoutErr nm msg = true →
      scrapeSinglePage render url cleanStartUrl t =
        (match render 2 (t * 2) with
         | NavOutcome.ok pd nav all =>
             some (pd, processLinks url cleanStartUrl nav all)
         | NavOutcome.err _ _ => none)) ∧
    (∀ nm msg, render 1 t = NavOutcome.err nm msg → isTimeoutErr nm msg = false →
      scrapeSinglePage render url cleanStartUrl t = none) ∧
    (∀ (π2 : Type) (fetchText : List Char → Option (List Char))
        (parseSitemapXml : List Char → SitemapDoc) (fuel : Nat)
        (scrape : List Char → Option (π2 × List (List Char)))
        (startUrl : List Char) (maxDepth maxPages : Nat)
        (pages : List π2) (trace : List DispatchEntry),
      scrapeClinicWebsite fetchText parseSitemapXml fuel scrape startUrl
          maxDepth maxPages = some (pages, trace) →
      pages = trace.filterMap (fun e => (scrape e.orig).map Prod.fst)) := by
  refine ⟨fun pd nav all h => scrapeSinglePage_ok h,
          fun nm msg h ht => scrapeSinglePage_timeout h ht,
          fun nm msg h ht => scrapeSinglePage_fail h ht,
          ?_⟩
  intro π2 fetchText parseSitemapXml fuel scrape startUrl maxDepth maxPages pages trace h
  unfold scrapeClinicWebsite at h
  split at h
  · cases h
  next cs hcs =>
    split at h
    · cases h
    next sm hsm =>
      have h' : crawlLoop scrape cs maxDepth maxPages (maxDepth + 1) 0 [] []
          (cs :: sm) = (pages, trace) := by injection h
      have hp := crawlLoop_pages scrape cs maxDepth maxPages (maxDepth + 1) 0 [] []
        (cs :: sm)
      rw [h'] at hp
      simpa using hp

/-- C4: merging a null LLM draft is the identity on the pattern draft — the
pipeline's final profile is then exactly the pattern-derived draft. -/
theorem mergeExtractedData_none_id (p : Draft) : mergeExtractedData none p = p := rfl

/-- C6 counterexample: 31 doctor matches with 31 distinct surnames on one page
yield only 30 staff entries — `extractDoctors` ends in `slice(0, 30)`, a fixed
count cap, while the dedup-only specification keeps all 31. -/
theorem extractDoctors_capped :
    (extractDoctors cxDocM6 cxPages6).length = 30 ∧
    (specDoctors cxDocM6 cxPages6).length = 31 := by decide

/-- C6 (amended): the services list is indeed uncapped — `extractServices`
equals its dedup-only specification — but the staff list is truncated by
`slice(0, 30)`: `extractDoctors` is the first 30 entries of the dedup-only
specification and so never exceeds 30 entries. -/
theorem normalizeClinicData_caps
    (svcMatches : NPage → List (List Char × List Char))
    (docMatches : NPage → List DocMatch) (pages : List NPage) :
    extractServices svcMatches pages = specServices svcMatches pages ∧
    extractDoctors docMatches pages = (specDoctors docMatches pages).take 30 ∧
    (extractDoctors docMatches pages).length ≤ 30 := by
  refine ⟨?_, ?_, ?_⟩
  · unfold extractServices
    rw [svcPass1_spec, svcPass2_spec]
    show dedupFirstByAux nsvcKey [] (svcCand1 pages) ++
        dedupFirstByAux nsvcKey (dedupSeenAfter nsvcKey [] (svcCand1 pages))
          (svcCand2 svcMatches pages) =
      specServices svcMatches pages
    rw [← dedupFirstByAux_append]
    rfl
  · unfold extractDoctors
    rw [docFold_spec]
    rfl
  · unfold extractDoctors
    exact List.length_take_le _ _

/-- C7 counterexample: the merged FAQ is `[...llmFaq, ...regexFaq]`, so a
pattern-draft FAQ entry does appear in the merged result even though the LLM
draft has no FAQ at all — pattern free-text is not excluded from the FAQ. -/
theorem mergeExtractedData_faq_from_pattern :
    emptyDraft.faq = none ∧
    (mergeExtractedData (some emptyDraft) cxPat7).faq =
      some [{ question := "Kde sidlite?", answer := "Bratislava" }] :=
  ⟨rfl, rfl⟩

/-- C7 (amended): `about`, `key_benefits`, `target_audience`,
`unique_approach`, `testimonials_summary` and `additional_info` are taken
from the LLM draft alone (`key_benefits` defaulting to empty when absent) —
but the merged FAQ is the LLM FAQ followed by the pattern FAQ, so pattern FAQ
entries are preserved rather than dropped. -/
theorem mergeExtractedData_freetext (l p : Draft) :
    (mergeExtractedData (some l) p).about = l.about ∧
    (mergeExtractedData (some l) p).key_benefits = some (l.key_benefits.getD []) ∧
    (mergeExtractedData (some l) p).target_audience = l.target_audience ∧
    (mergeExtractedData (some l) p).unique_approach = l.unique_approach ∧
    (mergeExtractedData (some l) p).testimonials_summary = l.testimonials_summary ∧
    (mergeExtractedData (some l) p).additional_info = l.additional_info ∧
    (mergeExtractedData (some l) p).faq = some (l.faq.getD [] ++ p.faq.getD []) :=
  ⟨rfl, rfl, rfl, rfl, rfl, rfl, rfl⟩

/-- C8 counterexample: `isSameDomain` compares hostnames only — two URLs that
differ in scheme but share a host are reported as same-domain, refuting the
claimed scheme+host comparison. -/
theorem isSameDomain_ignores_scheme :
    isSameDomain (strToL "http://example.com/") (strToL "https://example.com/") = true ∧
    (parseAbs (strToL "http://example.com/")).map UrlRec.scheme ≠
      (parseAbs (strToL "https://example.com/")).map UrlRec.scheme := by decide

/-- C8 (amended): when the base URL parses and the target resolves against
it, `isSameDomain` returns true exactly when the two hostnames are equal —
scheme, port, path, query and fragment are all ignored. -/
theorem isSameDomain_iff_host (a b : List Char) (B T : UrlRec)
    (h1 : parseAbs a = some B) (h2 : resolveRel b B = some T) :
    (isSameDomain a b = true ↔ B.host = T.host) := by
  unfold isSameDomain
  simp only [h1, h2]
  simp

theorem isSameDomain_iff_host_witness :
    isSameDomain (strToL "http://A.com/x") (strToL "HTTPS://a.com/y?q=2") = true :=
  (isSameDomain_iff_host (strToL "http://A.com/x") (strToL "HTTPS://a.com/y?q=2")
    ⟨strToL "http", true, strToL "a.com", none, strToL "/x", none, none⟩
    ⟨strToL "https", true, strToL "a.com", none, strToL "/y",
      some [(strToL "q", strToL "2")], none⟩
    (by decide) (by decide)).mpr (by decide)

/-- C9: URL normalization is idempotent — whenever `normalizeUrl` succeeds,
re-normalizing its output against the same base returns that output
unchanged. -/
theorem normalizeUrl_idem (u b v : List Char)
    (h : normalizeUrl u b = some v) : normalizeUrl v b = some v :=
  normalizeUrl_idem_core h

theorem normalizeUrl_idem_witness :
    normalizeUrl (strToL "http://ex.com/p?a=2") (strToL "http://base/") =
      some (strToL "http://ex.com/p?a=2") :=
  normalizeUrl_idem (strToL "HTTP://EX.com/p?gclid=1&a=2#z") (strToL "http://base/")
    (strToL "http://ex.com/p?a=2") (by decide)

/-- C10: every URL returned by sitemap discovery is already normalized (a
fixed point of `normalizeUrl` against the start URL), is on the start URL's
domain, and matches none of the crawl's ignore patterns. -/
theorem discoverSitemapUrls_clean (fetchText : List Char → Option (List Char))
    (parseSitemapXml : List Char → SitemapDoc) (fuel : Nat)
    (startUrl : List Char) (res : List (List Char)) (u : List Char)
    (h : discoverSitemapUrls fetchText parseSitemapXml fuel startUrl = some res)
    (hu : u ∈ res) :
    normalizeUrl u startUrl = some u ∧ isSameDomain startUrl u = true ∧
    shouldIgnoreUrl u = false := by
  obtain ⟨⟨orig, horig⟩, hsame, hign⟩ := discoverSitemapUrls_mem h hu
  exact ⟨normalizeUrl_idem_core horig, hsame, hign⟩

theorem discoverSitemapUrls_clean_witness :
    normalizeUrl (strToL "http://a/x") (strToL "http://a/") =
      some (strToL "http://a/x") ∧
    isSameDomain (strToL "http://a/") (strToL "http://a/x") = true ∧
    shouldIgnoreUrl (strToL "http://a/x") = false :=
  discoverSitemapUrls_clean wFetch10 wParse10 3 (strToL "http://a/")
    [strToL "http://a/x"] (strToL "http://a/x") (by decide) (by decide)
